import Mathlib

/-!
Verification development for the anonymize-and-chunk pipeline in
`template/algorithm/src/implementation/algorithm.py`.

Strings are modelled as `List Char`.  The Python regex call

    re.sub(r'\b' + re.escape(name) + r'\b', PLACEHOLDER, text, flags=re.IGNORECASE)

is embedded as a left-to-right scan over the original text: at each
position either the (escaped, hence literal) name matches there as a
case-insensitive whole word — both ends at a `\b` word boundary judged on
the characters of the original text — and the placeholder is emitted while
the scan resumes after the match, or one character is copied.  Word
characters and case folding are modelled at the ASCII level (`[A-Za-z0-9_]`
and ASCII lowercasing), the fragment of Python's semantics exercised by
this repository's data.  An empty name gives the pattern `r'\b\b'`, which
matches the empty string at every word boundary; `re.sub` then inserts the
replacement at each boundary position, which `reSubEmpty` reproduces.
-/

/-- ASCII word character, the literal class `[A-Za-z0-9_]` of `\w`/`\b`. -/
def isWordChar (c : Char) : Bool :=
  ('a' ≤ c && c ≤ 'z') || ('A' ≤ c && c ≤ 'Z') || ('0' ≤ c && c ≤ '9') || c = '_'

/-- ASCII lowercasing, modelling `re.IGNORECASE` comparison. -/
def lowerChar (c : Char) : Char :=
  match c with
  | 'A' => 'a' | 'B' => 'b' | 'C' => 'c' | 'D' => 'd' | 'E' => 'e' | 'F' => 'f'
  | 'G' => 'g' | 'H' => 'h' | 'I' => 'i' | 'J' => 'j' | 'K' => 'k' | 'L' => 'l'
  | 'M' => 'm' | 'N' => 'n' | 'O' => 'o' | 'P' => 'p' | 'Q' => 'q' | 'R' => 'r'
  | 'S' => 's' | 'T' => 't' | 'U' => 'u' | 'V' => 'v' | 'W' => 'w' | 'X' => 'x'
  | 'Y' => 'y' | 'Z' => 'z'
  | c => c

/-- Lowercase a whole string (as a character list). -/
def lowerList (s : List Char) : List Char := s.map lowerChar

/-- Is the character at index `i` a word character (out of range counts as no)? -/
def isWordAt : List Char → Nat → Bool
  | [], _ => false
  | c :: _, 0 => isWordChar c
  | _ :: t, i + 1 => isWordAt t i

/-- `from algorithm.py line 20`: the fixed replacement string. -/
def ANONYMIZATION_PLACEHOLDER : List Char := "[ANONYMIZED_PERSON]".data

/-- The word-character run inside the placeholder. -/
def APW : List Char := "ANONYMIZED_PERSON".data

/-- Whole-word case-insensitive match of `name` at the *front* of `t`, where
`b` records whether the character immediately before `t` in the full text is
a word character.  The first conjunct is the leading `\b`, the second the
trailing `\b`, the third the literal case-folded comparison. -/
def matchHead (b : Bool) (name t : List Char) : Bool :=
  (b != isWordAt t 0) &&
  (isWordAt t (name.length - 1) != isWordAt t name.length) &&
  (lowerList (t.take name.length) == lowerList name)

/-- Whole-word case-insensitive match of `name` at position `j` of `t`,
with `b` the word-character status of the character before `t`. -/
def matchFrom (b : Bool) (name t : List Char) : Nat → Bool
  | 0 => matchHead b name t
  | j + 1 =>
    match t with
    | [] => false
    | c :: t' => matchFrom (isWordChar c) name t' j

/-- `t` (with left context `b`) contains a case-insensitive whole-word
occurrence of `name` somewhere. -/
def hasOcc (b : Bool) (name t : List Char) : Bool :=
  (List.range (t.length + 1)).any (fun j => matchFrom b name t j)

/-- One `re.sub` pass for a nonempty name, fuelled (the fuel is an upper
bound on the text length, so the fuel-out branch is never reached from the
wrapper `reSubWord`).  `b` is the word-character status of the previous
character of the original text. -/
def reSubGo (name : List Char) : Nat → Bool → List Char → List Char
  | 0, _, _ => []
  | fuel + 1, b, t =>
    if matchHead b name t then
      ANONYMIZATION_PLACEHOLDER ++
        reSubGo name fuel (isWordAt t (name.length - 1)) (t.drop name.length)
    else
      match t with
      | [] => []
      | c :: t' => c :: reSubGo name fuel (isWordChar c) t'

/-- One `re.sub` pass for the empty name: the pattern `r'\b\b'` matches the
empty string exactly at word boundaries, so the placeholder is inserted at
every boundary position of the original text (including the end). -/
def reSubEmpty : Bool → List Char → List Char
  | b, [] => if b then ANONYMIZATION_PLACEHOLDER else []
  | b, c :: t =>
    (if b != isWordChar c then ANONYMIZATION_PLACEHOLDER else []) ++
      c :: reSubEmpty (isWordChar c) t

/-- One iteration of the loop body of `anonymize_text` (`algorithm.py`
lines 36-40): substitute one name. -/
def reSubWord (name t : List Char) : List Char :=
  if name = [] then reSubEmpty false t else reSubGo name t.length false t

/-- `algorithm.py` lines 26-41: `anonymize_text`. -/
def anonymize_text (text : List Char) (sensitive_names : List (List Char)) : List Char :=
  sensitive_names.foldl (fun acc n => reSubWord n acc) text

example : anonymize_text "Annual report by Ann".data ["Ann".data]
    = "Annual report by [ANONYMIZED_PERSON]".data := by decide
example : anonymize_text "ANN signed it".data ["Ann".data]
    = "[ANONYMIZED_PERSON] signed it".data := by decide
example : anonymize_text "ab".data [[]]
    = "[ANONYMIZED_PERSON]ab[ANONYMIZED_PERSON]".data := by decide
example : anonymize_text "ANONYMIZED_PERSON".data ["ANONYMIZED_PERSON".data]
    = "[ANONYMIZED_PERSON]".data := by decide
example : hasOcc false "ANONYMIZED_PERSON".data "x [ANONYMIZED_PERSON] y".data = true := by decide
example : hasOcc false "Ann".data "Annual meeting".data = false := by decide
example : anonymize_text "Ann-Ann".data ["Ann".data]
    = "[ANONYMIZED_PERSON]-[ANONYMIZED_PERSON]".data := by decide
example : anonymize_text "a b".data [[]]
    = "[ANONYMIZED_PERSON]a[ANONYMIZED_PERSON] [ANONYMIZED_PERSON]b[ANONYMIZED_PERSON]".data := by
  decide
example : anonymize_text "N/A is N/A.".data ["N/A".data]
    = "[ANONYMIZED_PERSON] is [ANONYMIZED_PERSON].".data := by decide
example : anonymize_text "xN/A NA N/Ab".data ["N/A".data] = "xN/A NA N/Ab".data := by decide
example : anonymize_text "foo_Ann Ann".data ["Ann".data]
    = "foo_Ann [ANONYMIZED_PERSON]".data := by decide

/-! ### Character-level lemmas -/

theorem lowerChar_word (c : Char) : isWordChar (lowerChar c) = isWordChar c := by
  unfold lowerChar
  split <;> rfl

theorem word_of_lower_eq {a b : Char} (h : lowerChar a = lowerChar b) :
    isWordChar a = isWordChar b := by
  rw [← lowerChar_word a, ← lowerChar_word b, h]

theorem lowerList_length (s : List Char) : (lowerList s).length = s.length :=
  List.length_map _ _

theorem length_eq_of_lower_eq {a b : List Char} (h : lowerList a = lowerList b) :
    a.length = b.length := by
  rw [← lowerList_length a, ← lowerList_length b, h]

theorem word_all_of_lower_eq : ∀ {a b : List Char}, lowerList a = lowerList b →
    b.all isWordChar = true → a.all isWordChar = true
  | [], [], _, _ => rfl
  | x :: a', y :: b', h, hb => by
    simp only [lowerList, List.map, List.cons.injEq] at h
    simp only [List.all_cons, Bool.and_eq_true] at hb ⊢
    exact ⟨by rw [word_of_lower_eq h.1]; exact hb.1,
      word_all_of_lower_eq (by simpa [lowerList] using h.2) hb.2⟩

/-! ### `isWordAt` lemmas -/

theorem isWordAt_get? (s : List Char) (i : Nat) :
    isWordAt s i = ((s.get? i).map isWordChar).getD false := by
  induction s generalizing i with
  | nil => cases i <;> rfl
  | cons c t ih => cases i with
    | zero => rfl
    | succ j => simpa [isWordAt] using ih j

theorem isWordAt_oob {s : List Char} {i : Nat} (h : s.length ≤ i) : isWordAt s i = false := by
  rw [isWordAt_get?, List.get?_eq_none.mpr h]; rfl

theorem isWordAt_append_left {a : List Char} (t : List Char) {i : Nat} (h : i < a.length) :
    isWordAt (a ++ t) i = isWordAt a i := by
  rw [isWordAt_get?, isWordAt_get?, List.get?_append h]

theorem isWordAt_append_right (a t : List Char) (i : Nat) :
    isWordAt (a ++ t) (a.length + i) = isWordAt t i := by
  rw [isWordAt_get?, isWordAt_get?, List.get?_append_right (Nat.le_add_right _ _)]
  simp

theorem isWordAt_drop (s : List Char) (n i : Nat) :
    isWordAt (s.drop n) i = isWordAt s (n + i) := by
  rw [isWordAt_get?, isWordAt_get?, List.get?_drop]

theorem isWordAt_take {s : List Char} {n i : Nat} (h : i < n) :
    isWordAt (s.take n) i = isWordAt s i := by
  rw [isWordAt_get?, isWordAt_get?, List.get?_take h]

theorem isWordAt_all {s : List Char} (hall : s.all isWordChar = true) {i : Nat}
    (h : i < s.length) : isWordAt s i = true := by
  induction s generalizing i with
  | nil => simp at h
  | cons c t ih =>
    simp only [List.all_cons, Bool.and_eq_true] at hall
    cases i with
    | zero => exact hall.1
    | succ j => exact ih hall.2 (by simpa using h)

/-! ### `matchHead` and `matchFrom` lemmas -/

/-- A word-only, nonempty name: the class of names for which the amended
anonymization guarantees are stated. -/
def goodName (name : List Char) : Prop :=
  name ≠ [] ∧ name.all isWordChar = true ∧ lowerList name ≠ lowerList APW

instance : DecidablePred goodName := fun _ => by
  unfold goodName; infer_instance

theorem mh_ci {b : Bool} {name t : List Char} (h : matchHead b name t = true) :
    lowerList (t.take name.length) = lowerList name := by
  simp only [matchHead, Bool.and_eq_true, beq_iff_eq] at h
  exact h.2

theorem mh_len_le {b : Bool} {name t : List Char} (h : matchHead b name t = true) :
    name.length ≤ t.length := by
  have := length_eq_of_lower_eq (mh_ci h)
  simp only [List.length_take] at this
  omega

theorem mh_nil {b : Bool} {name : List Char} : matchHead b name [] = false := by
  simp [matchHead, isWordAt]

theorem mh_slice_word {b : Bool} {name t : List Char} (h : matchHead b name t = true)
    (hw : name.all isWordChar = true) : (t.take name.length).all isWordChar = true :=
  word_all_of_lower_eq (mh_ci h) hw

theorem mh_head_word {b : Bool} {name t : List Char} (h : matchHead b name t = true)
    (hne : name ≠ []) (hw : name.all isWordChar = true) : isWordAt t 0 = true := by
  have hlen := mh_len_le h
  have hpos : 0 < name.length := List.length_pos.mpr hne
  have hlt : 0 < (t.take name.length).length := by simp only [List.length_take]; omega
  have := isWordAt_all (mh_slice_word h hw) hlt
  rwa [isWordAt_take hpos] at this

theorem mh_last_word {b : Bool} {name t : List Char} (h : matchHead b name t = true)
    (hne : name ≠ []) (hw : name.all isWordChar = true) :
    isWordAt t (name.length - 1) = true := by
  have hlen := mh_len_le h
  have hpos : 0 < name.length := List.length_pos.mpr hne
  have hlt : name.length - 1 < (t.take name.length).length := by
    simp only [List.length_take]; omega
  have := isWordAt_all (mh_slice_word h hw) hlt
  rwa [isWordAt_take (by omega)] at this

theorem mh_end_not_word {b : Bool} {name t : List Char} (h : matchHead b name t = true)
    (hne : name ≠ []) (hw : name.all isWordChar = true) :
    isWordAt t name.length = false := by
  have hlast := mh_last_word h hne hw
  simp only [matchHead, Bool.and_eq_true, bne_iff_ne, ne_eq] at h
  have h2 := h.1.2
  rw [hlast] at h2
  exact Bool.eq_false_iff.mpr fun hx => h2 hx.symm

theorem mh_head_not_word {b : Bool} {name t : List Char} (hne : name ≠ [])
    (hw : name.all isWordChar = true) (h0 : isWordAt t 0 = false) :
    matchHead b name t = false := by
  by_contra h
  rw [mh_head_word (Bool.of_not_eq_false h) hne hw] at h0
  exact Bool.true_eq_false.mp h0

theorem mh_ctx_word {name t : List Char} (hne : name ≠ [])
    (hw : name.all isWordChar = true) : matchHead true name t = false := by
  by_contra h
  have h' := Bool.of_not_eq_false h
  have hhead := mh_head_word h' hne hw
  simp only [matchHead, Bool.and_eq_true] at h'
  have h1 := h'.1.1
  rw [hhead] at h1
  simp at h1

theorem mf_zero (b : Bool) (name t : List Char) : matchFrom b name t 0 = matchHead b name t := by
  cases t <;> rfl

theorem mf_succ_eq (b b' : Bool) (name t : List Char) (j : Nat) :
    matchFrom b name t (j + 1) = matchFrom b' name t (j + 1) := by
  cases t <;> rfl

theorem mf_oob {name : List Char} :
    ∀ {t : List Char} {j : Nat} {b : Bool}, t.length < j + 1 → matchFrom b name t j = false := by
  intro t
  induction t with
  | nil =>
    intro j b _
    cases j with
    | zero => exact mh_nil
    | succ k => rfl
  | cons c t' ih =>
    intro j b hj
    cases j with
    | zero => simp at hj
    | succ k =>
      show matchFrom (isWordChar c) name t' k = false
      exact ih (by simpa using hj)

/-- Propositional form of "no whole-word occurrence". -/
def NoOcc (b : Bool) (name t : List Char) : Prop :=
  ∀ j : Nat, matchFrom b name t j = false

theorem hasOcc_false_iff {b : Bool} {name t : List Char} :
    hasOcc b name t = false ↔ NoOcc b name t := by
  constructor
  · intro h j
    by_cases hj : j < t.length + 1
    · by_contra hmf
      have : hasOcc b name t = true := by
        simp only [hasOcc, List.any_eq_true]
        exact ⟨j, List.mem_range.mpr hj, Bool.of_not_eq_false hmf⟩
      rw [h] at this
      exact Bool.false_ne_true this
    · exact mf_oob (by omega)
  · intro h
    simp only [hasOcc, List.any_eq_false]
    intro j _
    simp [h j]

theorem noOcc_cons {b : Bool} {name : List Char} {c : Char} {t : List Char} :
    NoOcc b name (c :: t) ↔
      matchHead b name (c :: t) = false ∧ NoOcc (isWordChar c) name t := by
  constructor
  · intro h
    exact ⟨h 0, fun j => h (j + 1)⟩
  · intro h j
    cases j with
    | zero => exact h.1
    | succ k => exact h.2 k

theorem noOcc_nil {b : Bool} {name : List Char} : NoOcc b name [] := by
  intro j
  cases j with
  | zero => exact mh_nil
  | succ k => rfl

/-- Peeling one character off a no-occurrence conclusion goal:
if there is no match at the front and none in the tail, there is none at all. -/
theorem noOcc_step {b : Bool} {name : List Char} {c : Char} {t : List Char}
    (h0 : matchHead b name (c :: t) = false) (h1 : NoOcc (isWordChar c) name t) :
    NoOcc b name (c :: t) :=
  noOcc_cons.mpr ⟨h0, h1⟩

/-! ### Structure of a `reSubGo` pass -/

theorem reSubGo_match {w : List Char} {fuel : Nat} {b : Bool} {t : List Char}
    (hm : matchHead b w t = true) :
    reSubGo w (fuel + 1) b t =
      ANONYMIZATION_PLACEHOLDER ++
        reSubGo w fuel (isWordAt t (w.length - 1)) (t.drop w.length) := by
  simp [reSubGo, hm]

theorem reSubGo_nil {w : List Char} {fuel : Nat} {b : Bool} :
    reSubGo w (fuel + 1) b [] = [] := by
  simp [reSubGo, mh_nil]

theorem reSubGo_cons {w : List Char} {fuel : Nat} {b : Bool} {c : Char} {t' : List Char}
    (hm : matchHead b w (c :: t') = false) :
    reSubGo w (fuel + 1) b (c :: t') = c :: reSubGo w fuel (isWordChar c) t' := by
  simp [reSubGo, hm]

theorem resub_fuel {w : List Char} (hne : w ≠ []) :
    ∀ (f1 f2 : Nat) (b : Bool) (t : List Char), t.length ≤ f1 → t.length ≤ f2 →
      reSubGo w f1 b t = reSubGo w f2 b t := by
  intro f1
  induction f1 with
  | zero =>
    intro f2 b t h1 _
    have ht : t = [] := List.eq_nil_of_length_eq_zero (Nat.le_zero.mp h1)
    subst ht
    cases f2 with
    | zero => rfl
    | succ f => rw [reSubGo_nil]; rfl
  | succ f1' ih =>
    intro f2 b t h1 h2
    cases f2 with
    | zero =>
      have ht : t = [] := List.eq_nil_of_length_eq_zero (Nat.le_zero.mp h2)
      subst ht
      rw [reSubGo_nil]
      rfl
    | succ f2' =>
      by_cases hm : matchHead b w t = true
      · have hnlen := mh_len_le hm
        have hnpos : 0 < w.length := List.length_pos.mpr hne
        rw [reSubGo_match hm, reSubGo_match hm,
          ih f2' (isWordAt t (w.length - 1)) (t.drop w.length)
            (by simp only [List.length_drop]; omega) (by simp only [List.length_drop]; omega)]
      · have hm' : matchHead b w t = false := Bool.of_not_eq_true hm
        cases t with
        | nil => rw [reSubGo_nil, reSubGo_nil]
        | cons c t' =>
          simp only [List.length_cons] at h1 h2
          rw [reSubGo_cons hm', reSubGo_cons hm',
            ih f2' (isWordChar c) t' (by omega) (by omega)]

theorem resub_head {w : List Char} (hne : w ≠ []) (hword : w.all isWordChar = true)
    {fuel : Nat} {b : Bool} {t : List Char} (hfuel : t.length ≤ fuel)
    (hg : b = true ∨ matchHead b w t = false) :
    isWordAt (reSubGo w fuel b t) 0 = isWordAt t 0 := by
  cases fuel with
  | zero =>
    have ht : t = [] := List.eq_nil_of_length_eq_zero (Nat.le_zero.mp hfuel)
    subst ht; rfl
  | succ f =>
    have hnm : matchHead b w t = false := by
      rcases hg with hb | hm
      · exact hb ▸ mh_ctx_word hne hword
      · exact hm
    simp only [reSubGo, hnm, if_false]
    cases t <;> rfl

theorem resub_take_at {w : List Char} (hne : w ≠ []) (hword : w.all isWordChar = true) :
    ∀ (k fuel : Nat) (b : Bool) (t : List Char), t.length ≤ fuel →
    (b = true ∨ matchHead b w t = false) →
    (∀ m, m < k → isWordAt (reSubGo w fuel b t) m = true) →
    (reSubGo w fuel b t).take k = t.take k ∧
      isWordAt (reSubGo w fuel b t) k = isWordAt t k := by
  intro k
  induction k with
  | zero =>
    intro fuel b t hfuel hg _
    exact ⟨by simp, resub_head hne hword hfuel hg⟩
  | succ k ih =>
    intro fuel b t hfuel hg hall
    have h0 : isWordAt (reSubGo w fuel b t) 0 = true := hall 0 (Nat.succ_pos k)
    have hnm : matchHead b w t = false := by
      rcases hg with hb | hm
      · exact hb ▸ mh_ctx_word hne hword
      · exact hm
    cases fuel with
    | zero =>
      have ht : t = [] := List.eq_nil_of_length_eq_zero (Nat.le_zero.mp hfuel)
      subst ht
      simp [reSubGo, isWordAt] at h0
    | succ f =>
      cases t with
      | nil => simp [reSubGo, hnm, isWordAt] at h0
      | cons c t' =>
        have hout : reSubGo w (f + 1) b (c :: t') = c :: reSubGo w f (isWordChar c) t' := by
          simp [reSubGo, hnm]
        rw [hout] at h0 hall ⊢
        have hcw : isWordChar c = true := h0
        have hall' : ∀ m, m < k → isWordAt (reSubGo w f (isWordChar c) t') m = true :=
          fun m hm => hall (m + 1) (Nat.succ_lt_succ hm)
        have hfuel' : t'.length ≤ f := by simpa using hfuel
        obtain ⟨htake, hat⟩ := ih f (isWordChar c) t' hfuel' (Or.inl hcw) hall'
        refine ⟨?_, ?_⟩
        · simp only [List.take_succ_cons, htake]
        · simpa [isWordAt] using hat

theorem mh_trans {w : List Char} (hne : w ≠ []) (hword : w.all isWordChar = true)
    {nm : List Char} (hnmne : nm ≠ []) {fuel : Nat} {b : Bool} {t : List Char}
    (hnmword : nm.all isWordChar = true) (hfuel : t.length ≤ fuel)
    (hg : b = true ∨ matchHead b w t = false)
    (hmt : matchHead b nm t = false) :
    matchHead b nm (reSubGo w fuel b t) = false := by
  by_contra hcon
  have hm := Bool.of_not_eq_false hcon
  have hslice := mh_slice_word hm hnmword
  have hlen := mh_len_le hm
  have hpos : 0 < nm.length := List.length_pos.mpr hnmne
  have hall : ∀ m, m < nm.length → isWordAt (reSubGo w fuel b t) m = true := by
    intro m hmlt
    have hlt : m < ((reSubGo w fuel b t).take nm.length).length := by
      simp only [List.length_take]; omega
    have := isWordAt_all hslice hlt
    rwa [isWordAt_take hmlt] at this
  obtain ⟨htake, hat⟩ := resub_take_at hne hword nm.length fuel b t hfuel hg hall
  have h0 : isWordAt (reSubGo w fuel b t) 0 = isWordAt t 0 := by
    calc isWordAt (reSubGo w fuel b t) 0
        = isWordAt ((reSubGo w fuel b t).take nm.length) 0 := (isWordAt_take hpos).symm
      _ = isWordAt (t.take nm.length) 0 := by rw [htake]
      _ = isWordAt t 0 := isWordAt_take hpos
  have hn1 : isWordAt (reSubGo w fuel b t) (nm.length - 1) = isWordAt t (nm.length - 1) := by
    have hlt : nm.length - 1 < nm.length := by omega
    calc isWordAt (reSubGo w fuel b t) (nm.length - 1)
        = isWordAt ((reSubGo w fuel b t).take nm.length) (nm.length - 1) :=
          (isWordAt_take hlt).symm
      _ = isWordAt (t.take nm.length) (nm.length - 1) := by rw [htake]
      _ = isWordAt t (nm.length - 1) := isWordAt_take hlt
  simp only [matchHead, Bool.and_eq_true, beq_iff_eq] at hm
  obtain ⟨⟨hb0, hbn⟩, hci⟩ := hm
  rw [h0] at hb0
  rw [hn1, hat] at hbn
  rw [htake] at hci
  have : matchHead b nm t = true := by
    simp only [matchHead, Bool.and_eq_true, beq_iff_eq]
    exact ⟨⟨hb0, hbn⟩, hci⟩
  rw [hmt] at this
  exact Bool.false_ne_true this

/-! ### The placeholder never hosts a word-only occurrence -/

theorem ph_append (u : List Char) :
    ANONYMIZATION_PLACEHOLDER ++ u = '[' :: (APW ++ (']' :: u)) := by
  rfl

theorem apw_cons : APW = 'A' :: "NONYMIZED_PERSON".data := by rfl

theorem mh_ap {nm : List Char} (hne : nm ≠ []) (hword : nm.all isWordChar = true)
    (hnap : lowerList nm ≠ lowerList APW) (u : List Char) :
    matchHead false nm (APW ++ (']' :: u)) = false := by
  by_contra hcon
  have hm := Bool.of_not_eq_false hcon
  have hlen := mh_len_le hm
  have hpos : 0 < nm.length := List.length_pos.mpr hne
  have hAPWlen : APW.length = 17 := by decide
  have hAPWword : APW.all isWordChar = true := by decide
  rcases Nat.lt_trichotomy nm.length 17 with hlt | heq | hgt
  · have h1 : isWordAt (APW ++ (']' :: u)) (nm.length - 1) = true := by
      rw [isWordAt_append_left _ (by omega)]
      exact isWordAt_all hAPWword (by omega)
    have h2 : isWordAt (APW ++ (']' :: u)) nm.length = true := by
      rw [isWordAt_append_left _ (by omega)]
      exact isWordAt_all hAPWword (by omega)
    simp only [matchHead, Bool.and_eq_true, bne_iff_ne, ne_eq] at hm
    exact hm.1.2 (by rw [h1, h2])
  · have htake : (APW ++ (']' :: u)).take nm.length = APW := by
      rw [heq, ← hAPWlen, List.take_left]
    have hci := mh_ci hm
    rw [htake] at hci
    exact hnap hci.symm
  · have hci := mh_ci hm
    have hL : ((APW ++ (']' :: u)).take nm.length).get? 17 = some ']' := by
      rw [List.get?_take hgt, List.get?_append_right (by omega)]
      simp [hAPWlen]
    have hc : nm.get? 17 = some (nm.get ⟨17, hgt⟩) := List.get?_eq_get hgt
    have hcw : isWordChar (nm.get ⟨17, hgt⟩) = true :=
      List.all_eq_true.mp hword _ (List.get_mem nm 17 hgt)
    have hlow : lowerChar ']' = lowerChar (nm.get ⟨17, hgt⟩) := by
      have h17 := congrArg (fun l => l.get? 17) hci
      simp only [lowerList, List.get?_map, hL, hc, Option.map_some'] at h17
      exact Option.some.inj h17
    have hbad := word_of_lower_eq hlow
    rw [hcw] at hbad
    exact absurd hbad (by decide)

theorem noOcc_ctx {nm u : List Char} (hne : nm ≠ []) (hword : nm.all isWordChar = true)
    (hu0 : isWordAt u 0 = false) {b : Bool} (h : NoOcc b nm u) (b' : Bool) : NoOcc b' nm u := by
  intro j
  cases j with
  | zero =>
    rw [mf_zero]
    exact mh_head_not_word hne hword hu0
  | succ k =>
    rw [mf_succ_eq b' b]
    exact h (k + 1)

theorem noOcc_word_append {nm : List Char} (hne : nm ≠ []) (hword : nm.all isWordChar = true) :
    ∀ (a : List Char), a.all isWordChar = true → ∀ {v : List Char}, NoOcc true nm v →
      NoOcc true nm (a ++ v) := by
  intro a
  induction a with
  | nil =>
    intro _ v hv
    simpa using hv
  | cons c a' ih =>
    intro hall v hv
    simp only [List.all_cons, Bool.and_eq_true] at hall
    rw [List.cons_append]
    refine noOcc_step (mh_ctx_word hne hword) ?_
    rw [hall.1]
    exact ih hall.2 hv

theorem noOcc_ph {nm : List Char} (hne : nm ≠ []) (hword : nm.all isWordChar = true)
    (hnap : lowerList nm ≠ lowerList APW) {u : List Char}
    (hu : ∀ b', NoOcc b' nm u) (b : Bool) :
    NoOcc b nm (ANONYMIZATION_PLACEHOLDER ++ u) := by
  rw [ph_append]
  refine noOcc_step (mh_head_not_word hne hword ?_) ?_
  · exact (by decide : isWordChar '[' = false)
  · rw [show isWordChar '[' = false from by decide]
    rw [show APW ++ (']' :: u) = 'A' :: ("NONYMIZED_PERSON".data ++ (']' :: u)) from rfl]
    refine noOcc_step ?_ ?_
    · have := mh_ap hne hword hnap u
      rwa [show APW ++ (']' :: u) = 'A' :: ("NONYMIZED_PERSON".data ++ (']' :: u)) from rfl]
        at this
    · rw [show isWordChar 'A' = true from by decide]
      refine noOcc_word_append hne hword "NONYMIZED_PERSON".data (by decide) ?_
      refine noOcc_step (mh_head_not_word hne hword ?_) ?_
      · exact (by decide : isWordChar ']' = false)
      · rw [show isWordChar ']' = false from by decide]
        exact hu false

theorem resub_run {w : List Char} (hne : w ≠ []) (hword : w.all isWordChar = true) :
    ∀ (a : List Char) (fuel : Nat) (v : List Char), a.all isWordChar = true →
      a.length + v.length ≤ fuel →
      reSubGo w fuel true (a ++ v) = a ++ reSubGo w v.length true v := by
  intro a
  induction a with
  | nil =>
    intro fuel v _ hf
    simpa using resub_fuel hne fuel v.length true v (by simpa using hf) le_rfl
  | cons c a' ih =>
    intro fuel v hall hf
    simp only [List.all_cons, Bool.and_eq_true] at hall
    cases fuel with
    | zero =>
      simp only [List.length_cons] at hf
      omega
    | succ f =>
      rw [List.cons_append, reSubGo_cons (mh_ctx_word hne hword), hall.1,
        ih f v hall.2 (by simp only [List.length_cons] at hf; omega)]
      rfl

theorem resub_ph {w : List Char} (hne : w ≠ []) (hword : w.all isWordChar = true)
    (hnap : lowerList w ≠ lowerList APW) {fuel : Nat} {b : Bool} {u : List Char}
    (hf : u.length + 19 ≤ fuel) :
    reSubGo w fuel b (ANONYMIZATION_PLACEHOLDER ++ u)
      = ANONYMIZATION_PLACEHOLDER ++ reSubGo w u.length false u := by
  cases fuel with
  | zero => omega
  | succ f =>
    rw [ph_append]
    rw [reSubGo_cons (mh_head_not_word hne hword (by decide : isWordChar '[' = false))]
    rw [show isWordChar '[' = false from by decide]
    cases f with
    | zero => omega
    | succ f' =>
      rw [show APW ++ (']' :: u) = 'A' :: ("NONYMIZED_PERSON".data ++ (']' :: u)) from rfl]
      rw [reSubGo_cons (by
        have := mh_ap hne hword hnap u
        rwa [show APW ++ (']' :: u) = 'A' :: ("NONYMIZED_PERSON".data ++ (']' :: u)) from rfl]
          at this)]
      rw [show isWordChar 'A' = true from by decide]
      rw [@resub_run w hne hword "NONYMIZED_PERSON".data f' (']' :: u) (by decide)
        (by simp only [List.length_cons]; simp only [List.length] ; omega)]
      rw [show (']' :: u).length = u.length + 1 from rfl]
      rw [reSubGo_cons (mh_ctx_word hne hword)]
      rw [show isWordChar ']' = false from by decide]
      rfl

/-! ### Main properties of one substitution pass -/

theorem isWordAt_cons_zero (c : Char) (t : List Char) :
    isWordAt (c :: t) 0 = isWordChar c := rfl

theorem isWordAt_cons_succ (c : Char) (t : List Char) (i : Nat) :
    isWordAt (c :: t) (i + 1) = isWordAt t i := rfl

theorem noOcc_drop {b : Bool} {nm : List Char} :
    ∀ {t : List Char}, NoOcc b nm t → ∀ (k : Nat), 0 < k →
      NoOcc (isWordAt t (k - 1)) nm (t.drop k) := by
  intro t
  induction t generalizing b with
  | nil =>
    intro _ k _
    simp only [List.drop_nil]
    exact noOcc_nil
  | cons c t' ih =>
    intro h k hk
    match k, hk with
    | 1, _ =>
      simpa [List.drop_one, isWordAt_cons_zero] using (noOcc_cons.mp h).2
    | k' + 2, _ =>
      have := ih (noOcc_cons.mp h).2 (k' + 1) (Nat.succ_pos k')
      simpa [List.drop_succ_cons, isWordAt_cons_succ] using this

theorem resub_noOcc {w : List Char} (hne : w ≠ []) (hword : w.all isWordChar = true)
    (hnap : lowerList w ≠ lowerList APW) :
    ∀ (fuel : Nat) (t : List Char) (b : Bool), t.length ≤ fuel →
      NoOcc b w (reSubGo w fuel b t) := by
  intro fuel
  induction fuel with
  | zero =>
    intro t b hf
    have ht : t = [] := List.eq_nil_of_length_eq_zero (Nat.le_zero.mp hf)
    subst ht
    exact noOcc_nil
  | succ f ih =>
    intro t b hf
    by_cases hm : matchHead b w t = true
    · rw [reSubGo_match hm, mh_last_word hm hne hword]
      have hnlen := mh_len_le hm
      have hnpos : 0 < w.length := List.length_pos.mpr hne
      have hflen : (t.drop w.length).length ≤ f := by
        simp only [List.length_drop]; omega
      have hrest := ih (t.drop w.length) true hflen
      have hdrop0 : isWordAt (t.drop w.length) 0 = false := by
        have := mh_end_not_word hm hne hword
        rw [isWordAt_drop]
        simpa using this
      have hhead : isWordAt (reSubGo w f true (t.drop w.length)) 0 = false := by
        rw [resub_head hne hword hflen (Or.inl rfl)]
        exact hdrop0
      exact noOcc_ph hne hword hnap (noOcc_ctx hne hword hhead hrest) b
    · have hm' : matchHead b w t = false := Bool.of_not_eq_true hm
      cases t with
      | nil =>
        rw [reSubGo_nil]
        exact noOcc_nil
      | cons c t' =>
        rw [reSubGo_cons hm']
        refine noOcc_step ?_ (ih t' (isWordChar c) (by simpa using hf))
        have := mh_trans hne hword hne hword hf (Or.inr hm') hm'
        rwa [reSubGo_cons hm'] at this

theorem resub_preserve {w : List Char} (hneW : w ≠ []) (hwordW : w.all isWordChar = true)
    {nm : List Char} (hne : nm ≠ []) (hword : nm.all isWordChar = true)
    (hnap : lowerList nm ≠ lowerList APW) :
    ∀ (fuel : Nat) (t : List Char) (b : Bool), t.length ≤ fuel →
      NoOcc b nm t → NoOcc b nm (reSubGo w fuel b t) := by
  intro fuel
  induction fuel with
  | zero =>
    intro t b hf _
    have ht : t = [] := List.eq_nil_of_length_eq_zero (Nat.le_zero.mp hf)
    subst ht
    exact noOcc_nil
  | succ f ih =>
    intro t b hf h
    by_cases hm : matchHead b w t = true
    · rw [reSubGo_match hm, mh_last_word hm hneW hwordW]
      have hnlen := mh_len_le hm
      have hnpos : 0 < w.length := List.length_pos.mpr hneW
      have hflen : (t.drop w.length).length ≤ f := by
        simp only [List.length_drop]; omega
      have hdropOcc : NoOcc true nm (t.drop w.length) := by
        have := noOcc_drop h w.length hnpos
        rwa [mh_last_word hm hneW hwordW] at this
      have hrest := ih (t.drop w.length) true hflen hdropOcc
      have hdrop0 : isWordAt (t.drop w.length) 0 = false := by
        have := mh_end_not_word hm hneW hwordW
        rw [isWordAt_drop]
        simpa using this
      have hhead : isWordAt (reSubGo w f true (t.drop w.length)) 0 = false := by
        rw [resub_head hneW hwordW hflen (Or.inl rfl)]
        exact hdrop0
      exact noOcc_ph hne hword hnap (noOcc_ctx hne hword hhead hrest) b
    · have hm' : matchHead b w t = false := Bool.of_not_eq_true hm
      cases t with
      | nil =>
        rw [reSubGo_nil]
        exact noOcc_nil
      | cons c t' =>
        rw [reSubGo_cons hm']
        have hsh := noOcc_cons.mp h
        refine noOcc_step ?_ (ih t' (isWordChar c) (by simpa using hf) hsh.2)
        have := mh_trans hneW hwordW hne hword hf (Or.inr hm') hsh.1
        rwa [reSubGo_cons hm'] at this

theorem resub_stable {w : List Char} :
    ∀ (fuel : Nat) (t : List Char) (b : Bool), t.length ≤ fuel →
      NoOcc b w t → reSubGo w fuel b t = t := by
  intro fuel
  induction fuel with
  | zero =>
    intro t b hf _
    have ht : t = [] := List.eq_nil_of_length_eq_zero (Nat.le_zero.mp hf)
    subst ht
    rfl
  | succ f ih =>
    intro t b hf h
    have hm : matchHead b w t = false := by
      have := h 0
      rwa [mf_zero] at this
    cases t with
    | nil => exact reSubGo_nil
    | cons c t' =>
      rw [reSubGo_cons hm, ih t' (isWordChar c) (by simpa using hf) (noOcc_cons.mp h).2]

/-! ### Lifting to `anonymize_text` -/

theorem reSubWord_noOcc {nm : List Char} (hg : goodName nm) (t : List Char) :
    NoOcc false nm (reSubWord nm t) := by
  obtain ⟨hne, hword, hnap⟩ := hg
  rw [reSubWord, if_neg hne]
  exact resub_noOcc hne hword hnap t.length t false le_rfl

theorem reSubWord_preserve {w nm : List Char} (hgw : goodName w) (hg : goodName nm)
    {t : List Char} (h : NoOcc false nm t) : NoOcc false nm (reSubWord w t) := by
  obtain ⟨hneW, hwordW, _⟩ := hgw
  obtain ⟨hne, hword, hnap⟩ := hg
  rw [reSubWord, if_neg hneW]
  exact resub_preserve hneW hwordW hne hword hnap t.length t false le_rfl h

theorem reSubWord_stable {nm : List Char} (hne : nm ≠ []) {t : List Char}
    (h : NoOcc false nm t) : reSubWord nm t = t := by
  rw [reSubWord, if_neg hne]
  exact resub_stable t.length t false le_rfl h

theorem foldl_preserve {nm : List Char} (hnm : goodName nm) :
    ∀ (names : List (List Char)), (∀ x ∈ names, goodName x) →
      ∀ (acc : List Char), NoOcc false nm acc →
        NoOcc false nm (names.foldl (fun a n => reSubWord n a) acc) := by
  intro names
  induction names with
  | nil =>
    intro _ acc h
    exact h
  | cons w ws ih =>
    intro hg acc h
    simp only [List.foldl_cons]
    exact ih (fun x hx => hg x (List.mem_cons_of_mem w hx)) (reSubWord w acc)
      (reSubWord_preserve (hg w (List.mem_cons_self w ws)) hnm h)

theorem anonymize_noOcc :
    ∀ (names : List (List Char)), (∀ x ∈ names, goodName x) →
      ∀ (text nm : List Char), nm ∈ names →
        NoOcc false nm (anonymize_text text names) := by
  intro names
  induction names with
  | nil =>
    intro _ _ nm h
    cases h
  | cons w ws ih =>
    intro hg text nm hnm
    show NoOcc false nm ((w :: ws).foldl (fun a n => reSubWord n a) text)
    simp only [List.foldl_cons]
    rcases List.mem_cons.mp hnm with heq | hmem
    · subst heq
      exact foldl_preserve (hg nm (List.mem_cons_self nm ws)) ws
        (fun x hx => hg x (List.mem_cons_of_mem _ hx)) (reSubWord nm text)
        (reSubWord_noOcc (hg nm (List.mem_cons_self nm ws)) text)
    · exact ih (fun x hx => hg x (List.mem_cons_of_mem _ hx)) (reSubWord w text) nm hmem

theorem anonymize_stable :
    ∀ (names : List (List Char)), (∀ x ∈ names, goodName x) → ∀ (y : List Char),
      (∀ nm ∈ names, NoOcc false nm y) → anonymize_text y names = y := by
  intro names
  induction names with
  | nil =>
    intro _ y _
    rfl
  | cons w ws ih =>
    intro hg y hy
    show (w :: ws).foldl (fun a n => reSubWord n a) y = y
    simp only [List.foldl_cons]
    rw [reSubWord_stable (hg w (List.mem_cons_self w ws)).1 (hy w (List.mem_cons_self w ws))]
    exact ih (fun x hx => hg x (List.mem_cons_of_mem _ hx)) y
      (fun x hx => hy x (List.mem_cons_of_mem _ hx))

/-! ### Decomposition of the output: placeholders for matches, copies elsewhere -/

/-- `Splice names s t` says the output `t` is the input `s` with some
disjoint segments, each case-insensitively equal to one of `names`,
replaced by the placeholder, and every other character copied unchanged.
This is the "every non-matched region is byte-identical" shape. -/
inductive Splice (names : List (List Char)) : List Char → List Char → Prop
  | nil : Splice names [] []
  | copy (c : Char) (s t : List Char) : Splice names s t → Splice names (c :: s) (c :: t)
  | repl (m s t : List Char) (name : List Char) (hmem : name ∈ names)
      (hci : lowerList m = lowerList name) : Splice names s t →
      Splice names (m ++ s) (ANONYMIZATION_PLACEHOLDER ++ t)

theorem splice_refl {names : List (List Char)} : ∀ (s : List Char), Splice names s s := by
  intro s
  induction s with
  | nil => exact Splice.nil
  | cons c s' ih => exact Splice.copy c s' s' ih

theorem splice_consume {names : List (List Char)} :
    ∀ (k : Nat) {s t : List Char}, Splice names s t → (t.take k).all isWordChar = true →
      k ≤ t.length → s.take k = t.take k ∧ Splice names (s.drop k) (t.drop k) := by
  intro k
  induction k with
  | zero =>
    intro s t h _ _
    exact ⟨rfl, by simpa using h⟩
  | succ k' ih =>
    intro s t h hall hk
    cases h with
    | nil => simp at hk
    | copy c s0 t0 h' =>
      simp only [List.take_succ_cons, List.all_cons, Bool.and_eq_true] at hall
      obtain ⟨h1, h2⟩ := ih h' hall.2 (by simpa using hk)
      refine ⟨?_, ?_⟩
      · simp only [List.take_succ_cons, h1]
      · simpa [List.drop_succ_cons] using h2
    | repl m s0 t0 name hmem hci h' =>
      exfalso
      rw [ph_append, List.take_succ_cons, List.all_cons] at hall
      simp [show isWordChar '[' = false from by decide] at hall

theorem resub_ph_tail {w : List Char} (hne : w ≠ []) (hword : w.all isWordChar = true)
    (hnap : lowerList w ≠ lowerList APW) {fuel : Nat} {u : List Char}
    (hf : u.length + 18 ≤ fuel) :
    reSubGo w fuel false (APW ++ (']' :: u))
      = APW ++ (']' :: reSubGo w u.length false u) := by
  cases fuel with
  | zero => omega
  | succ f' =>
    rw [show APW ++ (']' :: u) = 'A' :: ("NONYMIZED_PERSON".data ++ (']' :: u)) from rfl]
    rw [reSubGo_cons (by
      have := mh_ap hne hword hnap u
      rwa [show APW ++ (']' :: u) = 'A' :: ("NONYMIZED_PERSON".data ++ (']' :: u)) from rfl]
        at this)]
    rw [show isWordChar 'A' = true from by decide]
    rw [@resub_run w hne hword "NONYMIZED_PERSON".data f' (']' :: u) (by decide)
      (by simp only [List.length_cons]; simp only [List.length]; omega)]
    rw [show (']' :: u).length = u.length + 1 from rfl]
    rw [reSubGo_cons (mh_ctx_word hne hword)]
    rw [show isWordChar ']' = false from by decide]
    rfl

theorem splice_resub {names : List (List Char)} {w : List Char} (hmem : w ∈ names)
    (hne : w ≠ []) (hword : w.all isWordChar = true) (hnap : lowerList w ≠ lowerList APW) :
    ∀ (fuel : Nat) (t s : List Char) (b : Bool), t.length ≤ fuel → Splice names s t →
      Splice names s (reSubGo w fuel b t) := by
  intro fuel
  induction fuel with
  | zero =>
    intro t s b hf hsp
    have ht : t = [] := List.eq_nil_of_length_eq_zero (Nat.le_zero.mp hf)
    subst ht
    cases hsp with
    | nil => exact Splice.nil
  | succ f ih =>
    intro t s b hf hsp
    by_cases hm : matchHead b w t = true
    · have hci := mh_ci hm
      have hall : (t.take w.length).all isWordChar = true := word_all_of_lower_eq hci hword
      have hlen := mh_len_le hm
      have hnpos : 0 < w.length := List.length_pos.mpr hne
      obtain ⟨htake, hsp'⟩ := splice_consume w.length hsp hall hlen
      rw [reSubGo_match hm, ← List.take_append_drop w.length s]
      refine Splice.repl (s.take w.length) _ _ w hmem ?_ ?_
      · rw [htake]
        exact hci
      · exact ih (t.drop w.length) (s.drop w.length) _
          (by simp only [List.length_drop]; omega) hsp'
    · have hm' : matchHead b w t = false := Bool.of_not_eq_true hm
      cases t with
      | nil =>
        rw [reSubGo_nil]
        cases hsp with
        | nil => exact Splice.nil
      | cons c t' =>
        rw [reSubGo_cons hm']
        cases hsp with
        | copy c s0 t0 h₀ =>
          exact Splice.copy c _ _ (ih t' _ (isWordChar c) (by simpa using hf) h₀)
        | repl m s0 t0 name hmem₂ hci₂ h₀ =>
          simp only [List.length_cons, List.length_append, List.length, List.append_eq,
            List.nil_append] at hf
          have hlen18 : t0.length + 18 ≤ f := by omega
          show Splice names (m ++ s0) ('[' :: reSubGo w f (isWordChar '[') (APW ++ (']' :: t0)))
          rw [show isWordChar '[' = false from by decide]
          rw [resub_ph_tail hne hword hnap hlen18]
          rw [← ph_append]
          refine Splice.repl m _ _ name hmem₂ hci₂ ?_
          rw [resub_fuel hne t0.length f false t0 le_rfl (by omega)]
          exact ih t0 s0 false (by omega) h₀

theorem foldl_splice {names : List (List Char)} :
    ∀ (sub : List (List Char)), (∀ x ∈ sub, goodName x ∧ x ∈ names) →
      ∀ (acc s : List Char), Splice names s acc →
        Splice names s (sub.foldl (fun a n => reSubWord n a) acc) := by
  intro sub
  induction sub with
  | nil =>
    intro _ acc s h
    exact h
  | cons w ws ih =>
    intro hg acc s h
    simp only [List.foldl_cons]
    obtain ⟨⟨hne, hword, hnap⟩, hmem⟩ := hg w (List.mem_cons_self w ws)
    refine ih (fun x hx => hg x (List.mem_cons_of_mem _ hx)) (reSubWord w acc) s ?_
    rw [reSubWord, if_neg hne]
    exact splice_resub hmem hne hword hnap acc.length acc s false le_rfl h

theorem anonymize_splice (names : List (List Char)) (hg : ∀ x ∈ names, goodName x)
    (text : List Char) : Splice names text (anonymize_text text names) :=
  foldl_splice names (fun x hx => ⟨hg x hx, hx⟩) text text (splice_refl text)

theorem anonymize_idem (names : List (List Char)) (hg : ∀ x ∈ names, goodName x)
    (text : List Char) :
    anonymize_text (anonymize_text text names) names = anonymize_text text names :=
  anonymize_stable names hg _ (fun nm hnm => anonymize_noOcc names hg text nm hnm)

/-! ## Data model of the JSON / CSV records (`algorithm.py` lines 43-214)

Optional dictionary keys are modelled with `Option`; `none` means the key
is absent from the record. -/

structure Article where
  Content_FR : Option (List Char)
  Content_EN : Option (List Char)
deriving DecidableEq

structure AppointeeInfo where
  Name : Option (List Char)
  Replacement : Option (List Char)
deriving DecidableEq

structure Act where
  Date : Option (List Char)
  Title_FR : Option (List Char)
  Title_EN : Option (List Char)
  Appointee : Option AppointeeInfo
  Articles : Option (List Article)
deriving DecidableEq

structure Doc where
  Decrees : Option (List Act)
  Orders : Option (List Act)
deriving DecidableEq

structure Chunk where
  Chunk_ID : List Char
  Content_FR : Option (List Char)
  Content_EN : Option (List Char)
deriving DecidableEq

structure DocUnit where
  metadata : List (List Char × List Char)
  chunks : List Chunk
deriving DecidableEq

/-- A CSV row as parsed by `csv.DictReader`: an ordered association list of
column name to cell value (column names are unique in a CSV header). -/
def Row : Type := List (List Char × List Char)

instance : DecidableEq Row :=
  inferInstanceAs (DecidableEq (List (List Char × List Char)))

/-- Dictionary lookup (`'k' in d` plus `d['k']`). -/
def lookupKV (r : List (List Char × List Char)) (k : List Char) : Option (List Char) :=
  (r.find? (fun kv => kv.1 == k)).map (fun kv => kv.2)

def rowGet (r : Row) (k : List Char) : Option (List Char) := lookupKV r k

/-- Dictionary assignment `d['k'] = v` for a present key (keys are unique). -/
def rowSet (r : Row) (k v : List Char) : Row :=
  r.map (fun kv => if kv.1 == k then (kv.1, v) else kv)

def metaLookup (m : List (List Char × List Char)) (k : List Char) : Option (List Char) :=
  lookupKV m k

/-- Python 03d formatting: decimal digits left-padded with zeros to width 3. -/
def zeroPad3 (n : Nat) : List Char :=
  List.replicate (3 - (Nat.repr n).data.length) '0' ++ (Nat.repr n).data

/-- `algorithm.py` lines 56-63: names contributed by one act's appointee
record (the `Name` key whenever present, the `Replacement` key when present
and truthy, i.e. nonempty). -/
def actNames (a : Act) : List (List Char) :=
  match a.Appointee with
  | some ap =>
    (match ap.Name with
     | some n => [n]
     | none => []) ++
    (match ap.Replacement with
     | some r => if r = [] then [] else [r]
     | none => [])
  | none => []

/-- `algorithm.py` lines 55-63: the sensitive-name pre-pass over both
collections (`Decrees` first, then `Orders`). -/
def allSensitiveNames (d : Doc) : List (List Char) :=
  ((d.Decrees.getD []) ++ (d.Orders.getD [])).flatMap actNames

/-- The appointee name with the N/A default, read through the two
chained dict-get calls with defaults (empty dict, then the N/A sentinel). -/
def apName (a : Act) : List Char :=
  ((a.Appointee.getD ⟨none, none⟩).Name).getD "N/A".data

/-- One chunk built from one article (`algorithm.py` lines 78-87). -/
def mkChunkJson (names : List (List Char)) (j : Nat) (art : Article) : Chunk :=
  ⟨zeroPad3 (j + 1),
   some (anonymize_text (art.Content_FR.getD []) names),
   some (anonymize_text (art.Content_EN.getD []) names)⟩

/-- One output unit built from one act (`algorithm.py` lines 67-104 for
decrees, 108-143 for orders; the two loop bodies are identical up to the
`Type` label). -/
def mkUnitJson (src lbl : List Char) (names : List (List Char)) (act : Act) : DocUnit :=
  ⟨[("Source".data, src), ("Type".data, lbl),
    ("Date".data, act.Date.getD "N/A".data),
    ("Title (FR)".data, act.Title_FR.getD "N/A".data),
    ("Title (EN)".data, act.Title_EN.getD "N/A".data),
    ("Appointee Name".data,
      if apName act ≠ "N/A".data then ANONYMIZATION_PLACEHOLDER else apName act)],
   (act.Articles.getD []).enum.map (fun p => mkChunkJson names p.1 p.2)⟩

/-- `algorithm.py` lines 43-145: `filter_and_chunk_json_data`. -/
def filter_and_chunk_json_data (data : Doc) (original_file_name : List Char) : List DocUnit :=
  (data.Decrees.getD []).map
      (mkUnitJson original_file_name "Decree".data (allSensitiveNames data)) ++
    (data.Orders.getD []).map
      (mkUnitJson original_file_name "Order".data (allSensitiveNames data))

/-- `algorithm.py` lines 165-169: collect truthy `Name` cells. -/
def sensitiveNamesCsv (rows : List Row) : List (List Char) :=
  rows.filterMap (fun r =>
    match rowGet r "Name".data with
    | some v => if v = [] then none else some v
    | none => none)

def hexDigit (n : Nat) : Char :=
  if n < 10 then Char.ofNat (48 + n) else Char.ofNat (87 + n)

/-- `json.dumps` escaping of one character inside a string literal
(`ensure_ascii=False`: non-ASCII characters pass through unescaped). -/
def jsonEscChar (c : Char) : List Char :=
  if c = '"' then ['\\', '"']
  else if c = '\\' then ['\\', '\\']
  else if c = '\n' then ['\\', 'n']
  else if c = '\t' then ['\\', 't']
  else if c = '\r' then ['\\', 'r']
  else if c.toNat = 8 then ['\\', 'b']
  else if c.toNat = 12 then ['\\', 'f']
  else if c.toNat < 32 then
    ['\\', 'u', '0', '0', hexDigit (c.toNat / 16), hexDigit (c.toNat % 16)]
  else [c]

def jsonStr (s : List Char) : List Char := '"' :: (s.flatMap jsonEscChar ++ ['"'])

/-- `json.dumps(row, ensure_ascii=False)` for a flat string-to-string dict:
an open brace, comma-space-separated quoted key colon-space quoted value
pairs, and a close brace (the default separators). -/
def jsonDumpsRow (r : Row) : List Char :=
  '\x7b' :: (List.intercalate ", ".data
      (r.map (fun kv => jsonStr kv.1 ++ ": ".data ++ jsonStr kv.2)) ++ ['\x7d'])

/-- One output unit built from one CSV row (`algorithm.py` lines 171-213). -/
def mkUnitCsv (original_file_name : List Char) (names : List (List Char)) (i : Nat)
    (row : Row) : DocUnit :=
  let meta0 := [("Source".data, original_file_name), ("Type".data, "CSV_Row".data),
    ("Row_ID".data, (Nat.repr (i + 1)).data)]
  let meta1 := meta0 ++ (match rowGet row "Date".data with
    | some v => [("Date".data, v)]
    | none => [])
  let meta2 := meta1 ++ (match rowGet row "Subject".data with
    | some v => [("Title".data, v)]
    | none => [])
  let pr0 := match rowGet row "Name".data with
    | some _ => rowSet row "Name".data ANONYMIZATION_PLACEHOLDER
    | none => row
  let pr := match rowGet pr0 "Text_Content".data with
    | some t => rowSet pr0 "Text_Content".data (anonymize_text t names)
    | none => pr0
  let chunks := match rowGet pr "Text_Content".data with
    | some t => [⟨"001".data, none, some t⟩]
    | none => [⟨"001".data, none, some ("CSV Row data: ".data ++ jsonDumpsRow pr)⟩]
  ⟨meta2, chunks⟩

/-- `algorithm.py` lines 147-214: `filter_and_chunk_csv_data`. -/
def filter_and_chunk_csv_data (data : List Row) (original_file_name : List Char) :
    List DocUnit :=
  data.enum.map (fun p => mkUnitCsv original_file_name (sensitiveNamesCsv data) p.1 p.2)

/-! ## Unit writer (`algorithm.py` lines 217-247)

The writer's file-system effect is modelled as the list of
(file name, file body) pairs it produces, in writing order; the file name is
relative to the output directory `OUTPUT_DIR/output_sub_dir`. -/

/-- Body of the `.txt` file written for one unit (lines 232-245). -/
def fileBody (u : DocUnit) : List Char :=
  (u.metadata.flatMap (fun kv => kv.1 ++ ": ".data ++ kv.2 ++ ['\n'])) ++ '\n' ::
    u.chunks.flatMap (fun c =>
      "Chunk [".data ++ c.Chunk_ID ++ "]:".data ++ '\n' ::
        ((match c.Content_FR with
          | some t => if t = [] then [] else "Content (FR): ".data ++ t ++ ['\n']
          | none => []) ++
         (match c.Content_EN with
          | some t => if t = [] then [] else "Content (EN): ".data ++ t ++ ['\n']
          | none => []) ++ ['\n']))

/-- `algorithm.py` lines 217-247: `write_chunks_to_files`, as the ordered
list of files it writes. -/
def write_chunks_to_files (chunks_data : List DocUnit) (output_sub_dir : List Char) :
    List (List Char × List Char) :=
  chunks_data.enum.map (fun p =>
    (output_sub_dir ++ "_unit_".data ++ zeroPad3 (p.1 + 1) ++ ".txt".data, fileBody p.2))

/-- The *value* of a call to `write_chunks_to_files`: the Python function
body (lines 217-247) contains no return statement, so every call evaluates
to None — modelled as an `Option Nat` that is always `none` (a returned
count n would be `some n`). -/
def write_chunks_to_files_ret (chunks_data : List DocUnit) (output_sub_dir : List Char) :
    Option Nat :=
  match chunks_data, output_sub_dir with
  | _, _ => none

/-! ## Dispatcher (`algorithm.py` lines 253-290) -/

/-- The parsed input handed to the extractors: a JSON document, a CSV row
list, or an unsupported extension (lines 268-279). -/
inductive ParsedInput where
  | jsonIn (d : Doc)
  | csvIn (rows : List Row)
  | unsupported
deriving DecidableEq

def extractUnits : ParsedInput → List Char → List DocUnit
  | ParsedInput.jsonIn d, fname => filter_and_chunk_json_data d fname
  | ParsedInput.csvIn rows, fname => filter_and_chunk_csv_data rows fname
  | ParsedInput.unsupported, _ => []

/-- `algorithm.py` lines 281-285: the writer (and hence its
`os.makedirs`) is invoked only when the extracted unit list is nonempty;
`none` means no directory is created and no file is written. -/
def algorithm_main_writes (p : ParsedInput) (original_file_name ident : List Char) :
    Option (List (List Char × List Char)) :=
  match p with
  | ParsedInput.unsupported => none
  | _ =>
    match extractUnits p original_file_name with
    | [] => none
    | u :: us => some (write_chunks_to_files (u :: us) ident)

/-- Specification-side rendering of a unit file: the list of its lines. -/
def chunkLines (c : Chunk) : List (List Char) :=
  ["Chunk [".data ++ c.Chunk_ID ++ "]:".data] ++
  (match c.Content_FR with
   | some t => if t = [] then [] else ["Content (FR): ".data ++ t]
   | none => []) ++
  (match c.Content_EN with
   | some t => if t = [] then [] else ["Content (EN): ".data ++ t]
   | none => []) ++ [[]]

def fileLinesSpec (u : DocUnit) : List (List Char) :=
  u.metadata.map (fun kv => kv.1 ++ ": ".data ++ kv.2) ++ [[]] ++ u.chunks.flatMap chunkLines

/-- Render a list of lines, each newline-terminated. -/
def renderLines (ls : List (List Char)) : List Char := ls.flatMap (fun l => l ++ ['\n'])

/-- Executable substring check (for counterexamples about text appearing
verbatim in a file). -/
def isSubstr (p s : List Char) : Bool :=
  (List.range (s.length + 1)).any (fun i => ((s.drop i).take p.length) == p)

/-! ### Helper lemmas about the extractors and the writer -/

theorem mkUnitJson_type (src lbl : List Char) (names : List (List Char)) (act : Act) :
    metaLookup (mkUnitJson src lbl names act).metadata "Type".data = some lbl := rfl

theorem mkUnitJson_ap (src lbl : List Char) (names : List (List Char)) (act : Act) :
    metaLookup (mkUnitJson src lbl names act).metadata "Appointee Name".data
      = some (if apName act ≠ "N/A".data then ANONYMIZATION_PLACEHOLDER else apName act) := rfl

theorem mkUnitJson_date (src lbl : List Char) (names : List (List Char)) (act : Act) :
    metaLookup (mkUnitJson src lbl names act).metadata "Date".data
      = some (act.Date.getD "N/A".data) := rfl

theorem mkUnitJson_title_fr (src lbl : List Char) (names : List (List Char)) (act : Act) :
    metaLookup (mkUnitJson src lbl names act).metadata "Title (FR)".data
      = some (act.Title_FR.getD "N/A".data) := rfl

theorem mkUnitJson_title_en (src lbl : List Char) (names : List (List Char)) (act : Act) :
    metaLookup (mkUnitJson src lbl names act).metadata "Title (EN)".data
      = some (act.Title_EN.getD "N/A".data) := rfl

theorem mkUnitJson_chunk_count (src lbl : List Char) (names : List (List Char)) (act : Act) :
    (mkUnitJson src lbl names act).chunks.length = (act.Articles.getD []).length := by
  simp [mkUnitJson]

theorem mkUnitJson_chunk_ids (src lbl : List Char) (names : List (List Char)) (act : Act) :
    (mkUnitJson src lbl names act).chunks.map (fun c => c.Chunk_ID)
      = (List.range (act.Articles.getD []).length).map (fun j => zeroPad3 (j + 1)) := by
  show ((act.Articles.getD []).enum.map (fun p => mkChunkJson names p.1 p.2)).map
      (fun c => c.Chunk_ID) = _
  rw [List.map_map, ← List.enum_map_fst (act.Articles.getD []), List.map_map]
  rfl

theorem mkUnitJson_chunk_get (src lbl : List Char) (names : List (List Char)) (act : Act)
    {j : Nat} {art : Article} (hj : (act.Articles.getD []).get? j = some art) :
    (mkUnitJson src lbl names act).chunks.get? j
      = some ⟨zeroPad3 (j + 1),
          some (anonymize_text (art.Content_FR.getD []) names),
          some (anonymize_text (art.Content_EN.getD []) names)⟩ := by
  show ((act.Articles.getD []).enum.map (fun p => mkChunkJson names p.1 p.2)).get? j = _
  rw [List.get?_map, List.get?_enum, hj]
  rfl

theorem filter_json_length (d : Doc) (f : List Char) :
    (filter_and_chunk_json_data d f).length
      = (d.Decrees.getD []).length + (d.Orders.getD []).length := by
  simp [filter_and_chunk_json_data]

theorem filter_json_decree_get (d : Doc) (f : List Char) {k : Nat} {act : Act}
    (hk : (d.Decrees.getD []).get? k = some act) :
    (filter_and_chunk_json_data d f).get? k
      = some (mkUnitJson f "Decree".data (allSensitiveNames d) act) := by
  obtain ⟨hlt, -⟩ := List.get?_eq_some.mp hk
  rw [filter_and_chunk_json_data, List.get?_append (by simpa using hlt), List.get?_map, hk]
  rfl

theorem filter_json_order_get (d : Doc) (f : List Char) {k : Nat} {act : Act}
    (hk : (d.Orders.getD []).get? k = some act) :
    (filter_and_chunk_json_data d f).get? ((d.Decrees.getD []).length + k)
      = some (mkUnitJson f "Order".data (allSensitiveNames d) act) := by
  rw [filter_and_chunk_json_data, List.get?_append_right (by simp)]
  simp only [List.length_map]
  rw [show (d.Decrees.getD []).length + k - (d.Decrees.getD []).length = k by omega,
    List.get?_map, hk]
  rfl

theorem rowGet_rowSet_ne {r : Row} {k k' v : List Char} (hne : k' ≠ k) :
    rowGet (rowSet r k v) k' = rowGet r k' := by
  induction r with
  | nil => rfl
  | cons kv r' ih =>
    by_cases hkk : (kv.1 == k) = true
    · have hk1 : kv.1 = k := eq_of_beq hkk
      have hk' : (kv.1 == k') = false := by
        rw [hk1]
        exact beq_eq_false_iff_ne.mpr fun h => hne h.symm
      simpa [rowSet, rowGet, lookupKV, List.find?, hkk, hk'] using ih
    · have hkk' : (kv.1 == k) = false := Bool.of_not_eq_true hkk
      by_cases hf : (kv.1 == k') = true
      · simp [rowSet, rowGet, lookupKV, List.find?, hkk', hf]
      · have hf' : (kv.1 == k') = false := Bool.of_not_eq_true hf
        simpa [rowSet, rowGet, lookupKV, List.find?, hkk', hf'] using ih

theorem rowGet_rowSet_self {r : Row} {k v : List Char} :
    ∀ {w : List Char}, rowGet r k = some w → rowGet (rowSet r k v) k = some v := by
  induction r with
  | nil => intro w h; cases h
  | cons kv r' ih =>
    intro w h
    by_cases hkk : (kv.1 == k) = true
    · simp [rowSet, rowGet, lookupKV, List.find?, hkk]
    · have hkk' : (kv.1 == k) = false := Bool.of_not_eq_true hkk
      have h' : rowGet r' k = some w := by
        simpa [rowGet, lookupKV, List.find?, hkk'] using h
      simpa [rowSet, rowGet, lookupKV, List.find?, hkk'] using ih h' 

theorem mem_sensitiveNamesCsv {rows : List Row} {r : Row} (hr : r ∈ rows) {nm : List Char}
    (h : rowGet r "Name".data = some nm) (hne : nm ≠ []) : nm ∈ sensitiveNamesCsv rows := by
  unfold sensitiveNamesCsv
  refine List.mem_filterMap.mpr ⟨r, hr, ?_⟩
  rw [h]
  simp [hne]

theorem filter_csv_length (rows : List Row) (f : List Char) :
    (filter_and_chunk_csv_data rows f).length = rows.length := by
  simp [filter_and_chunk_csv_data]

theorem filter_csv_get (rows : List Row) (f : List Char) {k : Nat} {r : Row}
    (hk : rows.get? k = some r) :
    (filter_and_chunk_csv_data rows f).get? k
      = some (mkUnitCsv f (sensitiveNamesCsv rows) k r) := by
  rw [filter_and_chunk_csv_data, List.get?_map, List.get?_enum, hk]
  rfl

theorem mkUnitCsv_one_chunk (f : List Char) (names : List (List Char)) (i : Nat) (row : Row) :
    (mkUnitCsv f names i row).chunks.length = 1 ∧
    (mkUnitCsv f names i row).chunks.map (fun c => c.Chunk_ID) = ["001".data] := by
  unfold mkUnitCsv
  dsimp only
  split <;> simp

theorem mkUnitCsv_text_chunk (f : List Char) (names : List (List Char)) (i : Nat) {row : Row}
    {t : List Char} (ht : rowGet row "Text_Content".data = some t) :
    (mkUnitCsv f names i row).chunks
      = [⟨"001".data, none, some (anonymize_text t names)⟩] := by
  unfold mkUnitCsv
  cases hn : rowGet row "Name".data with
  | some nmv =>
    have h1 : rowGet (rowSet row "Name".data ANONYMIZATION_PLACEHOLDER) "Text_Content".data
        = some t := by
      rw [rowGet_rowSet_ne (by decide)]
      exact ht
    simp only [hn, h1, rowGet_rowSet_self h1]
  | none =>
    simp only [hn, ht, rowGet_rowSet_self ht]

theorem mkUnitCsv_meta_date_none (f : List Char) (names : List (List Char)) (i : Nat)
    (row : Row) (h : rowGet row "Date".data = none) :
    metaLookup (mkUnitCsv f names i row).metadata "Date".data = none := by
  unfold mkUnitCsv
  cases hsub : rowGet row "Subject".data <;> simp only [h, hsub] <;> rfl

theorem mkUnitCsv_meta_title_none (f : List Char) (names : List (List Char)) (i : Nat)
    (row : Row) (h : rowGet row "Subject".data = none) :
    metaLookup (mkUnitCsv f names i row).metadata "Title".data = none := by
  unfold mkUnitCsv
  cases hd : rowGet row "Date".data <;> simp only [h, hd] <;> rfl

/-! ## Claim theorems -/

/-- C1 counterexample: with the single name `ANONYMIZED_PERSON` (which also
reads as a whole word inside the placeholder `[ANONYMIZED_PERSON]`), the
output of `anonymize_text` still contains a case-insensitive whole-word
occurrence of that listed name, so the claim as stated is false. -/
theorem c1_counterexample :
    hasOcc false "ANONYMIZED_PERSON".data
      (anonymize_text "ANONYMIZED_PERSON".data ["ANONYMIZED_PERSON".data]) = true := by
  decide

/-- C1 (amended): for every text and every list of names each of which is
nonempty, consists only of word characters, and is not case-insensitively
equal to the placeholder's inner word `ANONYMIZED_PERSON`, the result of
`anonymize_text` contains no case-insensitive whole-word occurrence of any
listed name, and the output decomposes as the input with disjoint segments
— each case-insensitively equal to a listed name — replaced by the
placeholder, every other region byte-identical. -/
theorem c1_anonymize_no_occurrence (text : List Char) (names : List (List Char))
    (hg : ∀ nm ∈ names, goodName nm) :
    (∀ nm ∈ names, hasOcc false nm (anonymize_text text names) = false) ∧
      Splice names text (anonymize_text text names) :=
  ⟨fun nm hnm => hasOcc_false_iff.mpr (anonymize_noOcc names hg text nm hnm),
   anonymize_splice names hg text⟩

/-- Witness for C1's amended theorem at a concrete text and name list. -/
theorem c1_anonymize_no_occurrence_witness :
    (∀ nm ∈ ["Alice".data, "Bob".data], goodName nm) ∧
      ((∀ nm ∈ ["Alice".data, "Bob".data],
          hasOcc false nm
            (anonymize_text "Dr. Alice met BOB.".data ["Alice".data, "Bob".data]) = false) ∧
        Splice ["Alice".data, "Bob".data] "Dr. Alice met BOB.".data
          (anonymize_text "Dr. Alice met BOB.".data ["Alice".data, "Bob".data])) :=
  ⟨by decide,
   c1_anonymize_no_occurrence "Dr. Alice met BOB.".data ["Alice".data, "Bob".data] (by decide)⟩

/-- C4: the code does *not* guard against the empty-string name: the
compiled pattern is `r'\b\b'`, which matches the empty string at every word
boundary, so `re.sub` inserts the placeholder around every word of the text
instead of leaving it unchanged.  Evaluating the embedding at the failing
input `text = "ab"`, `names = [""]`. -/
theorem c4_empty_name_not_guarded :
    anonymize_text "ab".data [[]]
      = "[ANONYMIZED_PERSON]ab[ANONYMIZED_PERSON]".data := by
  decide

/-- C5 counterexample: with the name `ANONYMIZED_PERSON`, a second
application of `anonymize_text` re-matches inside the placeholder inserted
by the first, so the function is not idempotent as claimed. -/
theorem c5_counterexample :
    anonymize_text (anonymize_text "x ANONYMIZED_PERSON".data ["ANONYMIZED_PERSON".data])
        ["ANONYMIZED_PERSON".data]
      ≠ anonymize_text "x ANONYMIZED_PERSON".data ["ANONYMIZED_PERSON".data] := by
  decide

/-- C5 (amended): `anonymize_text` is idempotent for every text and every
list of names each of which is nonempty, consists only of word characters,
and is not case-insensitively equal to the placeholder's inner word
(placeholder text then never re-matches a listed name). -/
theorem c5_anonymize_idempotent (text : List Char) (names : List (List Char))
    (hg : ∀ nm ∈ names, goodName nm) :
    anonymize_text (anonymize_text text names) names = anonymize_text text names :=
  anonymize_idem names hg text

/-- Witness for C5's amended theorem at a concrete text and name list. -/
theorem c5_anonymize_idempotent_witness :
    (∀ nm ∈ ["Jane".data, "Doe".data], goodName nm) ∧
      anonymize_text
          (anonymize_text "Jane Doe signed. jane again.".data ["Jane".data, "Doe".data])
          ["Jane".data, "Doe".data]
        = anonymize_text "Jane Doe signed. jane again.".data ["Jane".data, "Doe".data] :=
  ⟨by decide,
   c5_anonymize_idempotent "Jane Doe signed. jane again.".data ["Jane".data, "Doe".data]
     (by decide)⟩

/-- C6: nested extraction yields exactly one unit per act across both
collections, with every decree unit preceding every order unit in source
order; each unit's chunk count equals its act's article count and its chunk
ids are exactly the zero-padded sequence "001","002",…,"NNN" with no gaps. -/
theorem c6_nested_unit_shape (d : Doc) (f : List Char) :
    (filter_and_chunk_json_data d f).length
        = (d.Decrees.getD []).length + (d.Orders.getD []).length ∧
    (∀ k act, (d.Decrees.getD []).get? k = some act →
      ∃ u, (filter_and_chunk_json_data d f).get? k = some u ∧
        metaLookup u.metadata "Type".data = some "Decree".data ∧
        u.chunks.length = (act.Articles.getD []).length ∧
        u.chunks.map (fun c => c.Chunk_ID)
          = (List.range (act.Articles.getD []).length).map (fun j => zeroPad3 (j + 1))) ∧
    (∀ k act, (d.Orders.getD []).get? k = some act →
      ∃ u, (filter_and_chunk_json_data d f).get? ((d.Decrees.getD []).length + k) = some u ∧
        metaLookup u.metadata "Type".data = some "Order".data ∧
        u.chunks.length = (act.Articles.getD []).length ∧
        u.chunks.map (fun c => c.Chunk_ID)
          = (List.range (act.Articles.getD []).length).map (fun j => zeroPad3 (j + 1))) := by
  refine ⟨filter_json_length d f, ?_, ?_⟩
  · intro k act hk
    exact ⟨_, filter_json_decree_get d f hk, mkUnitJson_type _ _ _ _,
      mkUnitJson_chunk_count _ _ _ _, mkUnitJson_chunk_ids _ _ _ _⟩
  · intro k act hk
    exact ⟨_, filter_json_order_get d f hk, mkUnitJson_type _ _ _ _,
      mkUnitJson_chunk_count _ _ _ _, mkUnitJson_chunk_ids _ _ _ _⟩

/-- Sample nested document used by the witnesses: one decree (two articles,
appointee "Rose Amvuma") and one order (one article, appointee name the
literal "N/A", replacement "Martin K"). -/
def sampleAct1 : Act :=
  ⟨some "16 March 1994".data, some "Decret".data, none,
   some ⟨some "Rose Amvuma".data, none⟩,
   some [⟨some "voir N/A et Rose Amvuma.".data, some "see Rose Amvuma".data⟩,
         ⟨none, none⟩]⟩

def sampleAct2 : Act :=
  ⟨none, none, none, some ⟨some "N/A".data, some "Martin K".data⟩,
   some [⟨some "M. Martin K et Rose Amvuma".data, none⟩]⟩

def sampleDoc : Doc := ⟨some [sampleAct1], some [sampleAct2]⟩

/-- Witness for C6 at the sample document. -/
theorem c6_nested_unit_shape_witness :
    ((sampleDoc.Decrees.getD []).get? 0 = some sampleAct1 ∧
      (sampleDoc.Orders.getD []).get? 0 = some sampleAct2) ∧
    (∃ u, (filter_and_chunk_json_data sampleDoc "g.json".data).get? 0 = some u ∧
      metaLookup u.metadata "Type".data = some "Decree".data ∧
      u.chunks.length = (sampleAct1.Articles.getD []).length ∧
      u.chunks.map (fun c => c.Chunk_ID)
        = (List.range (sampleAct1.Articles.getD []).length).map (fun j => zeroPad3 (j + 1))) ∧
    (∃ u, (filter_and_chunk_json_data sampleDoc "g.json".data).get?
          ((sampleDoc.Decrees.getD []).length + 0) = some u ∧
      metaLookup u.metadata "Type".data = some "Order".data ∧
      u.chunks.length = (sampleAct2.Articles.getD []).length ∧
      u.chunks.map (fun c => c.Chunk_ID)
        = (List.range (sampleAct2.Articles.getD []).length).map (fun j => zeroPad3 (j + 1))) :=
  ⟨⟨rfl, rfl⟩,
   (c6_nested_unit_shape sampleDoc "g.json".data).2.1 0 sampleAct1 rfl,
   (c6_nested_unit_shape sampleDoc "g.json".data).2.2 0 sampleAct2 rfl⟩

/-- C2 counterexample: a decree whose appointee name is *present* as the
literal string "N/A" produces an `Appointee Name` metadata entry equal to
that original value, not the placeholder, so the claim as stated is false. -/
theorem c2_counterexample :
    ((filter_and_chunk_json_data ⟨some [⟨none, none, none,
          some ⟨some "N/A".data, none⟩, none⟩], none⟩ "g.json".data).get? 0).map
        (fun u => metaLookup u.metadata "Appointee Name".data)
      = some (some "N/A".data) ∧
    "N/A".data ≠ ANONYMIZATION_PLACEHOLDER := by
  decide

/-- C2 (amended): the sensitive-name set is collected over both collections
(appointee names, and nonempty replacement names) before any act is
processed; for every act whose appointee name is present *and different
from the sentinel "N/A"* the produced unit's `Appointee Name` metadata is
exactly the placeholder; and every article's Content_FR/Content_EN in both
collections is anonymized against the full collected name set (so a name
taken from any act is replaced in every article's text). -/
theorem c2_nested_name_handling (d : Doc) (f : List Char) :
    (∀ act ∈ (d.Decrees.getD []) ++ (d.Orders.getD []),
      (∀ ap nm, act.Appointee = some ap → ap.Name = some nm →
        nm ∈ allSensitiveNames d) ∧
      (∀ ap rp, act.Appointee = some ap → ap.Replacement = some rp → rp ≠ [] →
        rp ∈ allSensitiveNames d)) ∧
    (∀ k act, (d.Decrees.getD []).get? k = some act → apName act ≠ "N/A".data →
      ∃ u, (filter_and_chunk_json_data d f).get? k = some u ∧
        metaLookup u.metadata "Appointee Name".data = some ANONYMIZATION_PLACEHOLDER) ∧
    (∀ k act, (d.Orders.getD []).get? k = some act → apName act ≠ "N/A".data →
      ∃ u, (filter_and_chunk_json_data d f).get? ((d.Decrees.getD []).length + k) = some u ∧
        metaLookup u.metadata "Appointee Name".data = some ANONYMIZATION_PLACEHOLDER) ∧
    (∀ k act j art, (d.Decrees.getD []).get? k = some act →
      (act.Articles.getD []).get? j = some art →
      ∃ u c, (filter_and_chunk_json_data d f).get? k = some u ∧ u.chunks.get? j = some c ∧
        c.Content_FR = some (anonymize_text (art.Content_FR.getD []) (allSensitiveNames d)) ∧
        c.Content_EN = some (anonymize_text (art.Content_EN.getD []) (allSensitiveNames d))) ∧
    (∀ k act j art, (d.Orders.getD []).get? k = some act →
      (act.Articles.getD []).get? j = some art →
      ∃ u c, (filter_and_chunk_json_data d f).get? ((d.Decrees.getD []).length + k) = some u ∧
        u.chunks.get? j = some c ∧
        c.Content_FR = some (anonymize_text (art.Content_FR.getD []) (allSensitiveNames d)) ∧
        c.Content_EN = some (anonymize_text (art.Content_EN.getD []) (allSensitiveNames d))) := by
  refine ⟨?_, ?_, ?_, ?_, ?_⟩
  · intro act hact
    constructor
    · intro ap nm hap hnm
      refine List.mem_flatMap.mpr ⟨act, hact, ?_⟩
      rw [actNames, hap]
      dsimp only
      rw [hnm]
      exact List.mem_append_left _ (List.mem_singleton.mpr rfl)
    · intro ap rp hap hrp hne
      refine List.mem_flatMap.mpr ⟨act, hact, ?_⟩
      rw [actNames, hap]
      dsimp only
      rw [hrp]
      refine List.mem_append_right _ ?_
      dsimp only
      rw [if_neg hne]
      exact List.mem_singleton.mpr rfl
  · intro k act hk hap
    refine ⟨_, filter_json_decree_get d f hk, ?_⟩
    rw [mkUnitJson_ap, if_pos hap]
  · intro k act hk hap
    refine ⟨_, filter_json_order_get d f hk, ?_⟩
    rw [mkUnitJson_ap, if_pos hap]
  · intro k act j art hk hj
    exact ⟨_, _, filter_json_decree_get d f hk, mkUnitJson_chunk_get _ _ _ _ hj, rfl, rfl⟩
  · intro k act j art hk hj
    exact ⟨_, _, filter_json_order_get d f hk, mkUnitJson_chunk_get _ _ _ _ hj, rfl, rfl⟩

/-- Witness for C2's amended theorem at the sample document: the decree's
name "Rose Amvuma" is in the collected set, its metadata is the
placeholder, and the order's article content (which mentions the decree's
appointee) is anonymized against the full set. -/
theorem c2_nested_name_handling_witness :
    (sampleAct1 ∈ (sampleDoc.Decrees.getD []) ++ (sampleDoc.Orders.getD []) ∧
      sampleAct1.Appointee = some ⟨some "Rose Amvuma".data, none⟩ ∧
      (sampleDoc.Decrees.getD []).get? 0 = some sampleAct1 ∧
      apName sampleAct1 ≠ "N/A".data ∧
      (sampleAct2.Articles.getD []).get? 0
        = some ⟨some "M. Martin K et Rose Amvuma".data, none⟩ ∧
      (sampleDoc.Orders.getD []).get? 0 = some sampleAct2) ∧
    "Rose Amvuma".data ∈ allSensitiveNames sampleDoc ∧
    (∃ u, (filter_and_chunk_json_data sampleDoc "g.json".data).get? 0 = some u ∧
      metaLookup u.metadata "Appointee Name".data = some ANONYMIZATION_PLACEHOLDER) ∧
    (∃ u c, (filter_and_chunk_json_data sampleDoc "g.json".data).get?
          ((sampleDoc.Decrees.getD []).length + 0) = some u ∧
      u.chunks.get? 0 = some c ∧
      c.Content_FR = some (anonymize_text
        ((Article.mk (some "M. Martin K et Rose Amvuma".data) none).Content_FR.getD [])
        (allSensitiveNames sampleDoc)) ∧
      c.Content_EN = some (anonymize_text
        ((Article.mk (some "M. Martin K et Rose Amvuma".data) none).Content_EN.getD [])
        (allSensitiveNames sampleDoc))) :=
  ⟨by decide,
   ((c2_nested_name_handling sampleDoc "g.json".data).1 sampleAct1 (by decide)).1
     ⟨some "Rose Amvuma".data, none⟩ "Rose Amvuma".data rfl rfl,
   (c2_nested_name_handling sampleDoc "g.json".data).2.1 0 sampleAct1 rfl (by decide),
   (c2_nested_name_handling sampleDoc "g.json".data).2.2.2.2 0 sampleAct2 0
     ⟨some "M. Martin K et Rose Amvuma".data, none⟩ rfl rfl⟩

/-- C10: an act whose `Appointee.Name` is literally "N/A" is treated as if
the name were missing — its unit's `Appointee Name` metadata stays "N/A"
rather than the placeholder — yet that literal string is still added to the
sensitive-name set, and every article's content is anonymized against that
set (so whole-word occurrences of "N/A" in article text are replaced by the
placeholder). -/
theorem c10_na_sentinel_name (d : Doc) (f : List Char) :
    (∀ act ∈ (d.Decrees.getD []) ++ (d.Orders.getD []),
      ∀ ap, act.Appointee = some ap → ap.Name = some "N/A".data →
        "N/A".data ∈ allSensitiveNames d ∧ apName act = "N/A".data) ∧
    (∀ k act, (d.Decrees.getD []).get? k = some act → apName act = "N/A".data →
      ∃ u, (filter_and_chunk_json_data d f).get? k = some u ∧
        metaLookup u.metadata "Appointee Name".data = some "N/A".data) ∧
    (∀ k act, (d.Orders.getD []).get? k = some act → apName act = "N/A".data →
      ∃ u, (filter_and_chunk_json_data d f).get? ((d.Decrees.getD []).length + k) = some u ∧
        metaLookup u.metadata "Appointee Name".data = some "N/A".data) ∧
    (∀ k act j art, (d.Decrees.getD []).get? k = some act →
      (act.Articles.getD []).get? j = some art →
      ∃ u c, (filter_and_chunk_json_data d f).get? k = some u ∧ u.chunks.get? j = some c ∧
        c.Content_FR = some (anonymize_text (art.Content_FR.getD []) (allSensitiveNames d)) ∧
        c.Content_EN = some (anonymize_text (art.Content_EN.getD []) (allSensitiveNames d))) ∧
    (∀ k act j art, (d.Orders.getD []).get? k = some act →
      (act.Articles.getD []).get? j = some art →
      ∃ u c, (filter_and_chunk_json_data d f).get? ((d.Decrees.getD []).length + k) = some u ∧
        u.chunks.get? j = some c ∧
        c.Content_FR = some (anonymize_text (art.Content_FR.getD []) (allSensitiveNames d)) ∧
        c.Content_EN = some (anonymize_text (art.Content_EN.getD []) (allSensitiveNames d))) := by
  refine ⟨?_, ?_, ?_, ?_, ?_⟩
  · intro act hact ap hap hnm
    constructor
    · refine List.mem_flatMap.mpr ⟨act, hact, ?_⟩
      rw [actNames, hap]
      dsimp only
      rw [hnm]
      exact List.mem_append_left _ (List.mem_singleton.mpr rfl)
    · rw [apName, hap]
      simp [hnm]
  · intro k act hk hap
    refine ⟨_, filter_json_decree_get d f hk, ?_⟩
    rw [mkUnitJson_ap, if_neg (by simp [hap]), hap]
  · intro k act hk hap
    refine ⟨_, filter_json_order_get d f hk, ?_⟩
    rw [mkUnitJson_ap, if_neg (by simp [hap]), hap]
  · intro k act j art hk hj
    exact ⟨_, _, filter_json_decree_get d f hk, mkUnitJson_chunk_get _ _ _ _ hj, rfl, rfl⟩
  · intro k act j art hk hj
    exact ⟨_, _, filter_json_order_get d f hk, mkUnitJson_chunk_get _ _ _ _ hj, rfl, rfl⟩

/-- Witness for C10 at the sample document: the order's appointee name is
the literal "N/A"; it stays "N/A" in metadata, it is in the sensitive-name
set, and the article contents of both the decree and the order itself are
anonymized against the set. -/
theorem c10_na_sentinel_name_witness :
    (sampleAct2 ∈ (sampleDoc.Decrees.getD []) ++ (sampleDoc.Orders.getD []) ∧
      sampleAct2.Appointee = some ⟨some "N/A".data, some "Martin K".data⟩ ∧
      (sampleDoc.Orders.getD []).get? 0 = some sampleAct2 ∧
      apName sampleAct2 = "N/A".data ∧
      (sampleDoc.Decrees.getD []).get? 0 = some sampleAct1 ∧
      (sampleAct1.Articles.getD []).get? 0
        = some ⟨some "voir N/A et Rose Amvuma.".data, some "see Rose Amvuma".data⟩ ∧
      (sampleAct2.Articles.getD []).get? 0
        = some ⟨some "M. Martin K et Rose Amvuma".data, none⟩) ∧
    ("N/A".data ∈ allSensitiveNames sampleDoc ∧ apName sampleAct2 = "N/A".data) ∧
    (∃ u, (filter_and_chunk_json_data sampleDoc "g.json".data).get?
          ((sampleDoc.Decrees.getD []).length + 0) = some u ∧
      metaLookup u.metadata "Appointee Name".data = some "N/A".data) ∧
    (∃ u c, (filter_and_chunk_json_data sampleDoc "g.json".data).get? 0 = some u ∧
      u.chunks.get? 0 = some c ∧
      c.Content_FR = some (anonymize_text
        ((Article.mk (some "voir N/A et Rose Amvuma.".data)
          (some "see Rose Amvuma".data)).Content_FR.getD [])
        (allSensitiveNames sampleDoc)) ∧
      c.Content_EN = some (anonymize_text
        ((Article.mk (some "voir N/A et Rose Amvuma.".data)
          (some "see Rose Amvuma".data)).Content_EN.getD [])
        (allSensitiveNames sampleDoc))) ∧
    (∃ u c, (filter_and_chunk_json_data sampleDoc "g.json".data).get?
          ((sampleDoc.Decrees.getD []).length + 0) = some u ∧
      u.chunks.get? 0 = some c ∧
      c.Content_FR = some (anonymize_text
        ((Article.mk (some "M. Martin K et Rose Amvuma".data) none).Content_FR.getD [])
        (allSensitiveNames sampleDoc)) ∧
      c.Content_EN = some (anonymize_text
        ((Article.mk (some "M. Martin K et Rose Amvuma".data) none).Content_EN.getD [])
        (allSensitiveNames sampleDoc))) :=
  ⟨by decide,
   (c10_na_sentinel_name sampleDoc "g.json".data).1 sampleAct2 (by decide)
     ⟨some "N/A".data, some "Martin K".data⟩ rfl rfl,
   (c10_na_sentinel_name sampleDoc "g.json".data).2.2.1 0 sampleAct2 rfl (by decide),
   (c10_na_sentinel_name sampleDoc "g.json".data).2.2.2.1 0 sampleAct1 0
     ⟨some "voir N/A et Rose Amvuma.".data, some "see Rose Amvuma".data⟩ rfl rfl,
   (c10_na_sentinel_name sampleDoc "g.json".data).2.2.2.2 0 sampleAct2 0
     ⟨some "M. Martin K et Rose Amvuma".data, none⟩ rfl rfl⟩

/-- C3 counterexample: a row whose `Subject` column equals its `Name` value
copies that value into the `Title` metadata unanonymized, so the name
appears verbatim in the file written for that row. -/
theorem c3_counterexample :
    ((filter_and_chunk_csv_data
        [[("Name".data, "Alice".data), ("Subject".data, "Alice".data),
          ("Text_Content".data, "hi".data)]] "t.csv".data).get? 0).map
        (fun u => isSubstr "Alice".data (fileBody u))
      = some true := by
  decide

/-- C3 (amended): each flat-shape row yields exactly one chunk (never zero,
never multiple) with id "001"; and when the row has a `Text_Content` field
and every collected `Name` value is a nonempty word-character-only string
not case-insensitively equal to `ANONYMIZED_PERSON`, the row's own `Name`
value has no case-insensitive whole-word occurrence in that chunk's
content.  (The name may still appear in the file through other copied
fields such as `Subject`/`Date`, as a sub-word of a longer word, or through
the fallback serialization of rows without `Text_Content`.) -/
theorem c3_flat_one_chunk (rows : List Row) (f : List Char) (k : Nat) (r : Row)
    (hk : rows.get? k = some r) :
    (∃ u, (filter_and_chunk_csv_data rows f).get? k = some u ∧
      u.chunks.length = 1 ∧ u.chunks.map (fun c => c.Chunk_ID) = ["001".data]) ∧
    (∀ t nm, rowGet r "Text_Content".data = some t → rowGet r "Name".data = some nm →
      (∀ x ∈ sensitiveNamesCsv rows, goodName x) → nm ≠ [] →
      ∃ u, (filter_and_chunk_csv_data rows f).get? k = some u ∧
        u.chunks = [⟨"001".data, none, some (anonymize_text t (sensitiveNamesCsv rows))⟩] ∧
        hasOcc false nm (anonymize_text t (sensitiveNamesCsv rows)) = false) := by
  constructor
  · exact ⟨_, filter_csv_get rows f hk, (mkUnitCsv_one_chunk f _ k r).1,
      (mkUnitCsv_one_chunk f _ k r).2⟩
  · intro t nm ht hnm hg hne
    have hmem : nm ∈ sensitiveNamesCsv rows :=
      mem_sensitiveNamesCsv (List.get?_mem hk) hnm hne
    exact ⟨_, filter_csv_get rows f hk, mkUnitCsv_text_chunk f _ k ht,
      hasOcc_false_iff.mpr (anonymize_noOcc _ hg t nm hmem)⟩

/-- Witness for C3's amended theorem at a concrete two-row input. -/
theorem c3_flat_one_chunk_witness :
    ([[("Name".data, "Alice".data), ("Text_Content".data, "Alice met Bob".data)],
      [("Name".data, "Bob".data)]].get? 0
        = some [("Name".data, "Alice".data), ("Text_Content".data, "Alice met Bob".data)] ∧
      rowGet [("Name".data, "Alice".data), ("Text_Content".data, "Alice met Bob".data)]
          "Text_Content".data = some "Alice met Bob".data ∧
      rowGet [("Name".data, "Alice".data), ("Text_Content".data, "Alice met Bob".data)]
          "Name".data = some "Alice".data ∧
      (∀ x ∈ sensitiveNamesCsv
          [[("Name".data, "Alice".data), ("Text_Content".data, "Alice met Bob".data)],
           [("Name".data, "Bob".data)]], goodName x) ∧
      "Alice".data ≠ ([] : List Char)) ∧
    (∃ u, (filter_and_chunk_csv_data
        [[("Name".data, "Alice".data), ("Text_Content".data, "Alice met Bob".data)],
         [("Name".data, "Bob".data)]] "t.csv".data).get? 0 = some u ∧
      u.chunks = [⟨"001".data, none,
        some (anonymize_text "Alice met Bob".data (sensitiveNamesCsv
          [[("Name".data, "Alice".data), ("Text_Content".data, "Alice met Bob".data)],
           [("Name".data, "Bob".data)]]))⟩] ∧
      hasOcc false "Alice".data (anonymize_text "Alice met Bob".data (sensitiveNamesCsv
        [[("Name".data, "Alice".data), ("Text_Content".data, "Alice met Bob".data)],
         [("Name".data, "Bob".data)]])) = false) :=
  ⟨⟨rfl, rfl, rfl, by decide, by decide⟩,
   (c3_flat_one_chunk
       [[("Name".data, "Alice".data), ("Text_Content".data, "Alice met Bob".data)],
        [("Name".data, "Bob".data)]] "t.csv".data 0
       [("Name".data, "Alice".data), ("Text_Content".data, "Alice met Bob".data)] rfl).2
     "Alice met Bob".data "Alice".data rfl rfl (by decide) (by decide)⟩

theorem chunkBody_eq (c : Chunk) :
    "Chunk [".data ++ c.Chunk_ID ++ "]:".data ++ '\n' ::
        ((match c.Content_FR with
          | some t => if t = [] then [] else "Content (FR): ".data ++ t ++ ['\n']
          | none => []) ++
         (match c.Content_EN with
          | some t => if t = [] then [] else "Content (EN): ".data ++ t ++ ['\n']
          | none => []) ++ ['\n'])
      = (chunkLines c).flatMap (fun l => l ++ ['\n']) := by
  unfold chunkLines
  cases hfr : c.Content_FR with
  | none =>
    cases hen : c.Content_EN with
    | none => simp
    | some t => by_cases ht : t = [] <;> simp [ht]
  | some s =>
    by_cases hs : s = []
    · cases hen : c.Content_EN with
      | none => simp [hs]
      | some t => by_cases ht : t = [] <;> simp [hs, ht]
    · cases hen : c.Content_EN with
      | none => simp [hs]
      | some t => by_cases ht : t = [] <;> simp [hs, ht]

theorem metaBody_eq (meta : List (List Char × List Char)) :
    (meta.flatMap fun kv => kv.1 ++ ": ".data ++ kv.2 ++ ['\n'])
      = (meta.map (fun kv => kv.1 ++ ": ".data ++ kv.2)).flatMap (fun l => l ++ ['\n']) := by
  induction meta with
  | nil => rfl
  | cons kv m ih =>
    simp only [List.flatMap_cons, List.map_cons]
    rw [ih]

theorem chunksBody_eq (chs : List Chunk) :
    (chs.flatMap fun c =>
      "Chunk [".data ++ c.Chunk_ID ++ "]:".data ++ '\n' ::
        ((match c.Content_FR with
          | some t => if t = [] then [] else "Content (FR): ".data ++ t ++ ['\n']
          | none => []) ++
         (match c.Content_EN with
          | some t => if t = [] then [] else "Content (EN): ".data ++ t ++ ['\n']
          | none => []) ++ ['\n']))
      = (chs.flatMap chunkLines).flatMap (fun l => l ++ ['\n']) := by
  rw [List.flatMap_assoc]
  induction chs with
  | nil => rfl
  | cons c chs ih =>
    simp only [List.flatMap_cons]
    rw [ih, chunkBody_eq]

theorem fileBody_eq_renderLines (u : DocUnit) :
    fileBody u = renderLines (fileLinesSpec u) := by
  unfold fileBody fileLinesSpec renderLines
  rw [List.flatMap_append, List.flatMap_append, metaBody_eq, chunksBody_eq]
  rw [show (([[]] : List (List Char)).flatMap fun l => l ++ ['\n']) = ['\n'] from rfl]
  simp [List.append_assoc]

/-- C7 counterexample: the writer writes two files for a two-unit list, yet
the call's value is None (the Python function has no return statement), so
the claim's "the call returns the count of files written" is false at this
concrete input. -/
theorem c7_counterexample :
    (write_chunks_to_files
        [⟨[("Source".data, "f".data)], []⟩, ⟨[("Type".data, "Order".data)], []⟩]
        "sub".data).length = 2 ∧
    write_chunks_to_files_ret
        [⟨[("Source".data, "f".data)], []⟩, ⟨[("Type".data, "Order".data)], []⟩]
        "sub".data ≠ some 2 := by
  decide

/-- C7 (amended): the writer emits exactly one file per unit — so the number
of files written equals the unit count, which is what the dispatcher
reports — named from the group key and 1-based zero-padded position; the
body is each metadata entry as a `key: value` line in insertion order, one
blank line, then for each chunk in order a header line naming the chunk id,
a `Content (FR)` line iff that content is present and nonempty, a
`Content (EN)` line iff present and nonempty, and a blank separator line; a
unit with no chunks yields only the metadata block plus the blank line.
The call itself returns no value (None), not the count. -/
theorem c7_writer_format (units : List DocUnit) (g : List Char) :
    (write_chunks_to_files units g).length = units.length ∧
    write_chunks_to_files_ret units g = none ∧
    (∀ k u, units.get? k = some u →
      (write_chunks_to_files units g).get? k
        = some (g ++ "_unit_".data ++ zeroPad3 (k + 1) ++ ".txt".data,
            renderLines (fileLinesSpec u))) := by
  refine ⟨?_, rfl, ?_⟩
  · simp [write_chunks_to_files]
  · intro k u hk
    rw [write_chunks_to_files, List.get?_map, List.get?_enum, hk]
    simp [fileBody_eq_renderLines]

/-- Witness for C7 at a concrete unit list: one unit with a metadata entry
and two chunks (one with empty EN content, suppressing its line), and one
unit with no chunks. -/
theorem c7_writer_format_witness :
    ([(⟨[("Source".data, "f".data)],
        [⟨"001".data, some "x".data, some [] ⟩]⟩ : DocUnit),
      ⟨[("Type".data, "Decree".data)], []⟩].get? 1
        = some ⟨[("Type".data, "Decree".data)], []⟩) ∧
    (write_chunks_to_files
        [⟨[("Source".data, "f".data)], [⟨"001".data, some "x".data, some [] ⟩]⟩,
         ⟨[("Type".data, "Decree".data)], []⟩] "sub".data).get? 1
      = some ("sub".data ++ "_unit_".data ++ zeroPad3 2 ++ ".txt".data,
          renderLines (fileLinesSpec ⟨[("Type".data, "Decree".data)], []⟩)) :=
  ⟨rfl,
   (c7_writer_format
       [⟨[("Source".data, "f".data)], [⟨"001".data, some "x".data, some [] ⟩]⟩,
        ⟨[("Type".data, "Decree".data)], []⟩] "sub".data).2.2 1
     ⟨[("Type".data, "Decree".data)], []⟩ rfl⟩

/-- C8: a record with an absent optional field never aborts extraction — in
the nested shape a missing `Date`, `Title_FR` or `Title_EN` yields the
literal sentinel "N/A" in the corresponding metadata entry; in the flat
shape a missing `Date` or `Subject` column simply omits the corresponding
metadata entry; and sibling records are all still extracted (one unit per
act / per row, always). -/
theorem c8_missing_fields :
    (∀ (d : Doc) (f : List Char) (k : Nat) (act : Act),
      (d.Decrees.getD []).get? k = some act →
      ∃ u, (filter_and_chunk_json_data d f).get? k = some u ∧
        (act.Date = none → metaLookup u.metadata "Date".data = some "N/A".data) ∧
        (act.Title_FR = none → metaLookup u.metadata "Title (FR)".data = some "N/A".data) ∧
        (act.Title_EN = none → metaLookup u.metadata "Title (EN)".data = some "N/A".data)) ∧
    (∀ (d : Doc) (f : List Char) (k : Nat) (act : Act),
      (d.Orders.getD []).get? k = some act →
      ∃ u, (filter_and_chunk_json_data d f).get? ((d.Decrees.getD []).length + k) = some u ∧
        (act.Date = none → metaLookup u.metadata "Date".data = some "N/A".data) ∧
        (act.Title_FR = none → metaLookup u.metadata "Title (FR)".data = some "N/A".data) ∧
        (act.Title_EN = none → metaLookup u.metadata "Title (EN)".data = some "N/A".data)) ∧
    (∀ (rows : List Row) (f : List Char) (k : Nat) (r : Row), rows.get? k = some r →
      ∃ u, (filter_and_chunk_csv_data rows f).get? k = some u ∧
        (rowGet r "Date".data = none → metaLookup u.metadata "Date".data = none) ∧
        (rowGet r "Subject".data = none → metaLookup u.metadata "Title".data = none)) ∧
    (∀ (d : Doc) (f : List Char), (filter_and_chunk_json_data d f).length
        = (d.Decrees.getD []).length + (d.Orders.getD []).length) ∧
    (∀ (rows : List Row) (f : List Char),
      (filter_and_chunk_csv_data rows f).length = rows.length) := by
  refine ⟨?_, ?_, ?_, filter_json_length, filter_csv_length⟩
  · intro d f k act hk
    refine ⟨_, filter_json_decree_get d f hk, ?_, ?_, ?_⟩
    · intro h
      rw [mkUnitJson_date, h]
      rfl
    · intro h
      rw [mkUnitJson_title_fr, h]
      rfl
    · intro h
      rw [mkUnitJson_title_en, h]
      rfl
  · intro d f k act hk
    refine ⟨_, filter_json_order_get d f hk, ?_, ?_, ?_⟩
    · intro h
      rw [mkUnitJson_date, h]
      rfl
    · intro h
      rw [mkUnitJson_title_fr, h]
      rfl
    · intro h
      rw [mkUnitJson_title_en, h]
      rfl
  · intro rows f k r hk
    exact ⟨_, filter_csv_get rows f hk,
      fun h => mkUnitCsv_meta_date_none f _ k r h,
      fun h => mkUnitCsv_meta_title_none f _ k r h⟩

/-- Witness for C8: a decree with no optional fields at all, and a CSV row
with only a `Name` column. -/
theorem c8_missing_fields_witness :
    (((Doc.mk (some [⟨none, none, none, none, none⟩]) none).Decrees.getD []).get? 0
        = some ⟨none, none, none, none, none⟩ ∧
      ([[("Name".data, "Bob".data)]] : List Row).get? 0 = some [("Name".data, "Bob".data)] ∧
      rowGet [("Name".data, "Bob".data)] "Date".data = none ∧
      rowGet [("Name".data, "Bob".data)] "Subject".data = none) ∧
    (∃ u, (filter_and_chunk_json_data ⟨some [⟨none, none, none, none, none⟩], none⟩
          "g.json".data).get? 0 = some u ∧
      ((⟨none, none, none, none, none⟩ : Act).Date = none →
        metaLookup u.metadata "Date".data = some "N/A".data) ∧
      ((⟨none, none, none, none, none⟩ : Act).Title_FR = none →
        metaLookup u.metadata "Title (FR)".data = some "N/A".data) ∧
      ((⟨none, none, none, none, none⟩ : Act).Title_EN = none →
        metaLookup u.metadata "Title (EN)".data = some "N/A".data)) ∧
    (∃ u, (filter_and_chunk_csv_data [[("Name".data, "Bob".data)]] "t.csv".data).get? 0
        = some u ∧
      (rowGet [("Name".data, "Bob".data)] "Date".data = none →
        metaLookup u.metadata "Date".data = none) ∧
      (rowGet [("Name".data, "Bob".data)] "Subject".data = none →
        metaLookup u.metadata "Title".data = none)) :=
  ⟨⟨rfl, rfl, rfl, rfl⟩,
   c8_missing_fields.1 ⟨some [⟨none, none, none, none, none⟩], none⟩ "g.json".data 0
     ⟨none, none, none, none, none⟩ rfl,
   c8_missing_fields.2.2.1 [[("Name".data, "Bob".data)]] "t.csv".data 0
     [("Name".data, "Bob".data)] rfl⟩

/-- C9: when extraction produces an empty unit list the dispatcher never
invokes the writer — no output directory is created and no file is written
(`algorithm_main_writes` returns `none`, the no-effect outcome). -/
theorem c9_empty_units_no_write (p : ParsedInput) (f ident : List Char)
    (h : extractUnits p f = []) : algorithm_main_writes p f ident = none := by
  cases p with
  | jsonIn d => simp only [algorithm_main_writes, h]
  | csvIn rows => simp only [algorithm_main_writes, h]
  | unsupported => rfl

/-- Witness for C9: a JSON document with no collections extracts no units,
and the dispatcher performs no write. -/
theorem c9_empty_units_no_write_witness :
    extractUnits (ParsedInput.jsonIn ⟨none, none⟩) "g.json".data = [] ∧
      algorithm_main_writes (ParsedInput.jsonIn ⟨none, none⟩) "g.json".data
        "g_json".data = none :=
  ⟨rfl, c9_empty_units_no_write (ParsedInput.jsonIn ⟨none, none⟩) "g.json".data
    "g_json".data rfl⟩
